import Mathlib

/-
  Verification of the MCTS core in src/tictactoe/mcts_modified.py.

  The tree of MCTSNode objects is embedded as an arena: a list of node
  records, where parent references and children references are indices
  into the list (the root is index 0, new nodes are appended at the end).
  Machine floats are modelled by ℚ for the accumulated statistics and by
  ℝ for the UCB score; the game abstraction (p2_t3.Board) is a structure
  of pure functions over an abstract state type.
-/

set_option maxRecDepth 8000

namespace Mcts

/-- An action of the game, a quadruple (R, C, r, c) as destructured in
rollout (mcts_modified.py line 128). -/
abbrev Action : Type := ℕ × ℕ × ℕ × ℕ

/-- The game abstraction consumed by the search core: the methods of
p2_t3.Board that mcts_modified.py calls.  States are an abstract type,
players are 1 and 2, points_values is present exactly on terminal
states (returning none models Python None). -/
structure Board (S : Type) where
  current_player : S → ℕ
  legal_actions : S → List Action
  next_state : S → Action → S
  is_ended : S → Bool
  points_values : S → Option (ℕ → ℤ)
  owned_boxes : S → ℕ × ℕ → ℕ

/-- Modelled from the spec: the Search Node record of §3 (mcts_node.py is
not in src/).  A fresh node stores its parent back-reference, the action
that produced it, the not-yet-expanded actions of its state, the
accumulated outcome `wins` and the simulation count `visits`, and the
mapping action → child.  Parent and children are arena indices. -/
structure NodeData where
  parent : Option ℕ
  parent_action : Option Action
  untried_actions : List Action
  wins : ℤ
  visits : ℕ
  child_nodes : List (Action × ℕ)
  deriving DecidableEq

/-- The record of a node that is nowhere: reading an out-of-range arena
index yields this (never happens in well-formed executions). -/
def noNode : NodeData :=
  { parent := none, parent_action := none, untried_actions := []
    wins := 0, visits := 0, child_nodes := [] }

/-- Read the node stored at index i of the arena. -/
def getN : List NodeData → ℕ → NodeData
  | [], _ => noNode
  | x :: _, 0 => x
  | _ :: xs, n + 1 => getN xs n

/-- Replace the node at index i of the arena by f applied to it
(identity when i is out of range). -/
def upd : List NodeData → ℕ → (NodeData → NodeData) → List NodeData
  | [], _, _ => []
  | x :: xs, 0, f => f x :: xs
  | x :: xs, n + 1, f => x :: upd xs n f

/-- The iteration budget num_nodes = 100 of mcts_modified.py. -/
def num_nodes : ℕ := 100

/-- The exploration constant explore_faction = 2. of mcts_modified.py. -/
noncomputable def explore_faction : ℝ := 2

/-- The UCB score of mcts_modified.py (ucb, lines 167-182), written on the
fields it reads: the node's wins and visits and its parent's visits.
The boolean is the is_opponent argument, which traverse_nodes passes as
(bot_identity == board.current_player(state)) at the parent's state. -/
noncomputable def ucb (wins visits parentVisits : ℝ) (is_opponent : Bool) : ℝ :=
  if is_opponent then
    wins / visits + explore_faction * Real.sqrt (Real.log parentVisits / visits)
  else
    (1 - wins / visits) + explore_faction * Real.sqrt (Real.log parentVisits / visits)

/-- Python dict assignment d[a] = v on the insertion-ordered association
list of children: replaces in place if the key is present, else appends. -/
def dictInsert : List (Action × ℕ) → Action → ℕ → List (Action × ℕ)
  | [], a, v => [(a, v)]
  | (b, w) :: rest, a, v =>
    if b = a then (a, v) :: rest else (b, w) :: dictInsert rest a v

/-- The Expander (mcts_modified.py, expand_leaf, lines 57-87).  If the node
has untried actions it pops the last one (Python list.pop), applies it,
creates the child node owning the legal actions of the next state, registers
the child under that action, and returns (child, next state); otherwise it
returns the input unchanged.  The arena is threaded explicitly. -/
def expand_leaf {S : Type} (b : Board S) (arena : List NodeData) (i : ℕ) (s : S) :
    List NodeData × ℕ × S :=
  match (getN arena i).untried_actions.getLast? with
  | some parentAction =>
    let nextState := b.next_state s parentAction
    let actionList := b.legal_actions nextState
    let newIdx := arena.length
    let newNode : NodeData :=
      { parent := some i, parent_action := some parentAction,
        untried_actions := actionList, wins := 0, visits := 0, child_nodes := [] }
    let arena' := upd arena i (fun nd =>
      { nd with untried_actions := nd.untried_actions.dropLast,
                child_nodes := dictInsert nd.child_nodes parentAction newIdx })
    (arena' ++ [newNode], newIdx, nextState)
  | none => (arena, i, s)

/-- The Backpropagator (mcts_modified.py, backpropagate, lines 151-165),
with an explicit fuel for the recursion along parent references; the guard
p < i is automatic in well-formed arenas (parents are created before their
children) and the wrapper below supplies sufficient fuel.  bumpStat is the
node.wins += won; node.visits += 1 update of lines 160-161. -/
def bumpStat (won : ℤ) (nd : NodeData) : NodeData :=
  { nd with wins := nd.wins + won, visits := nd.visits + 1 }

/-- The recursion of backpropagate (lines 151-165) with explicit fuel. -/
def backpropF : ℕ → List NodeData → ℕ → ℤ → List NodeData
  | 0, arena, _, _ => arena
  | fuel + 1, arena, i, won =>
    match (getN (upd arena i (bumpStat won)) i).parent with
    | none => upd arena i (bumpStat won)
    | some p =>
      if p < i then backpropF fuel (upd arena i (bumpStat won)) p won
      else upd arena i (bumpStat won)

/-- backpropagate(node, won): walk from node i to the root adding won to
wins and 1 to visits.  Indices strictly decrease along parent references,
so fuel i + 1 always suffices. -/
def backpropagate (arena : List NodeData) (i : ℕ) (won : ℤ) : List NodeData :=
  backpropF (i + 1) arena i won

/-- The parent chain of node i: i itself, then its parent, and so on while
parent references exist (same guard and fuel as backpropF, so it lists
exactly the indices that backpropagate touches). -/
def chainF : ℕ → List NodeData → ℕ → List ℕ
  | 0, _, _ => []
  | fuel + 1, arena, i =>
    match (getN arena i).parent with
    | none => [i]
    | some p => if p < i then i :: chainF fuel arena p else [i]

/-- The parent chain of node i with the canonical fuel. -/
def chain (arena : List NodeData) (i : ℕ) : List ℕ := chainF (i + 1) arena i

/-- Result of the child-scanning loop of traverse_nodes (lines 36-47):
either the early return of a child (taken when the child has zero visits or
the node still has untried actions), or completion with the best child and
the log of (child visits, parent visits) pairs read by each ucb call. -/
inductive ScanResult (U : Type) where
  | early (a : Action) (j : ℕ) (log : List (ℕ × ℕ))
  | done (best : Option (Action × ℕ)) (log : List (ℕ × ℕ))
  deriving DecidableEq

/-- The parent visits ucb reads for node j: node.parent.visits, following
node j's own parent reference (the getD 0 default is never reached in built
trees, where every child has a parent). -/
def pvOf (arena : List NodeData) (j : ℕ) : ℕ :=
  (getN arena ((getN arena j).parent.getD 0)).visits

/-- The for-loop of traverse_nodes (lines 36-47) over the children mapping,
carrying bestUCB and the best (action, child) so far.  The scoring function
is a parameter so that the search structure can be studied for any scores;
the program instantiates it with the real-valued ucb above.  Each ucb call
is logged with the child's visits and the visits read through the child's
parent reference (node.parent.visits in the source). -/
def scanChildren {U : Type} [LinearOrder U] (ucbFn : ℤ → ℕ → ℕ → Bool → U)
    (arena : List NodeData) (flag : Bool) (untriedLen : ℕ) :
    List (Action × ℕ) → U → Option (Action × ℕ) → List (ℕ × ℕ) → ScanResult U
  | [], _, best, log => .done best log
  | (a, j) :: rest, bestU, best, log =>
    if (getN arena j).visits = 0 ∨ 0 < untriedLen then .early a j log
    else
      if bestU < ucbFn (getN arena j).wins (getN arena j).visits (pvOf arena j) flag then
        scanChildren ucbFn arena flag untriedLen rest
          (ucbFn (getN arena j).wins (getN arena j).visits (pvOf arena j) flag)
          (some (a, j)) (log ++ [((getN arena j).visits, pvOf arena j)])
      else
        scanChildren ucbFn arena flag untriedLen rest bestU best
          (log ++ [((getN arena j).visits, pvOf arena j)])

/-- The Selector (mcts_modified.py, traverse_nodes, lines 9-55).  Descends
from node i while the node is fully expanded and its state non-terminal,
choosing the child of strictly greatest score (first found on ties, initial
best −999999 passed as initUCB), with the early return of a zero-visit
child.  Returns the reached (node, state) plus the ghost log of ucb reads
and whether the early-return branch ever fired; none models the crash when
no best child exists.  Fuel bounds the recursion depth (node indices
strictly increase along the descent, so arena length + 1 suffices). -/
def traverse_nodes {S U : Type} [LinearOrder U] (b : Board S)
    (ucbFn : ℤ → ℕ → ℕ → Bool → U) (initUCB : U) (bot : ℕ) (arena : List NodeData) :
    ℕ → ℕ → S → Option (ℕ × S × List (ℕ × ℕ) × Bool)
  | 0, _, _ => none
  | fuel + 1, i, s =>
    if (getN arena i).untried_actions.length < 1 ∧ b.is_ended s = false then
      match scanChildren ucbFn arena (bot == b.current_player s)
          (getN arena i).untried_actions.length (getN arena i).child_nodes
          initUCB none [] with
      | .early a j log => some (j, b.next_state s a, log, true)
      | .done none _ => none
      | .done (some (a, j)) log =>
        match traverse_nodes b ucbFn initUCB bot arena fuel j (b.next_state s a) with
        | none => none
        | some (r, s', log', e') => some (r, s', log ++ log', e')
    else some (i, s, [], false)

/-- The three outcomes of the loop body of one rollout step for one action:
chosen immediately (break with nextAction set), excluded (continue), or
added to the neutral candidate pool. -/
inductive StepClass where
  | pick
  | skip
  | neutral
  deriving DecidableEq

/-- The decision the rollout loop body (mcts_modified.py, lines 112-141)
takes for one action a = (R, C, r, c): pick on an immediate win for the
mover (line 120) or — when not an immediate loss — on claiming sub-board
(R, C) for the mover (line 132); skip on an immediate loss (line 125) or on
handing sub-board (R, C) to the opponent, player 3 − cur (line 137);
neutral otherwise (line 141).  A terminal draw falls through to the
sub-board tests exactly as in the source. -/
def classify {S : Type} (b : Board S) (s : S) (cur : ℕ) (a : Action) : StepClass :=
  let ns := b.next_state s a
  match b.points_values ns with
  | some f =>
    if f cur = 1 then .pick
    else if f cur = -1 then .skip
    else
      if b.owned_boxes ns (a.1, a.2.1) = cur then .pick
      else if b.owned_boxes ns (a.1, a.2.1) = 3 - cur then .skip
      else .neutral
  | none =>
    if b.owned_boxes ns (a.1, a.2.1) = cur then .pick
    else if b.owned_boxes ns (a.1, a.2.1) = 3 - cur then .skip
    else .neutral

/-- The for-loop of one rollout step (mcts_modified.py, lines 111-141):
scans the legal actions in order, short-circuiting on the first picked
action, dropping skipped ones, and accumulating the neutral ones as the
candidate pool.  Returns (chosen action if any, the pool built so far). -/
def rolloutScan {S : Type} (b : Board S) (s : S) (cur : ℕ) :
    List Action → List Action → Option Action × List Action
  | [], validActions => (none, validActions)
  | a :: rest, validActions =>
    match classify b s cur a with
    | .pick => (some a, validActions)
    | .skip => rolloutScan b s cur rest validActions
    | .neutral => rolloutScan b s cur rest (validActions ++ [a])

/-- The Playout Evaluator (mcts_modified.py, rollout, lines 89-149).  Plays
heuristic-guided moves until the state is terminal.  Randomness is a stream
rng consumed through a counter; random.choice(validActions) is modelled as
indexing by rng k modulo the pool size, which is none exactly on the empty
pool (the IndexError of random.choice on an empty list).  Fuel bounds the
game length; exhaustion also yields none. -/
def rollout {S : Type} (b : Board S) (rng : ℕ → ℕ) : ℕ → ℕ → S → Option (S × ℕ)
  | k, 0, s => if b.is_ended s then some (s, k) else none
  | k, fuel + 1, s =>
    if b.is_ended s then some (s, k)
    else
      match rolloutScan b s (b.current_player s) (b.legal_actions s) [] with
      | (some a, _) => rollout b rng k fuel (b.next_state s a)
      | (none, validActions) =>
        match validActions.get? (rng k % validActions.length) with
        | none => none
        | some a => rollout b rng (k + 1) fuel (b.next_state s a)

/-- The for-loop of get_best_action (lines 197-202): scan the root's
children in stored order keeping the strictly greatest wins/visits ratio
(initial best −999999) and the corresponding child's parent_action. -/
def bestScan (arena : List NodeData) :
    List (Action × ℕ) → ℚ → Option Action → Option Action
  | [], _, act => act
  | (_, j) :: rest, bestRate, act =>
    let child := getN arena j
    let currRate := (child.wins : ℚ) / (child.visits : ℚ)
    if bestRate < currRate then bestScan arena rest currRate child.parent_action
    else bestScan arena rest bestRate act

/-- The Action Recommender (mcts_modified.py, get_best_action, lines
184-204).  Returns none (the Python None sentinel) when the root has no
children. -/
def get_best_action (arena : List NodeData) (i : ℕ) : Option Action :=
  bestScan arena (getN arena i).child_nodes (-999999) none

/-- The simulation loop of think (lines 225-241): n remaining iterations of
Selector → Expander → Playout Evaluator → Backpropagator, threading the
arena, the rng counter, the accumulated ucb log and the early-return flag.
none models any crash (stuck selector, rollout failure, or reading
points_values of a non-terminal state). -/
def thinkLoop {S U : Type} [LinearOrder U] (b : Board S)
    (ucbFn : ℤ → ℕ → ℕ → Bool → U) (initUCB : U) (bot : ℕ) (s0 : S)
    (rng : ℕ → ℕ) (fuel : ℕ) :
    ℕ → List NodeData → ℕ → List (ℕ × ℕ) → Bool →
    Option (List NodeData × ℕ × List (ℕ × ℕ) × Bool)
  | 0, arena, k, log, e => some (arena, k, log, e)
  | n + 1, arena, k, log, e =>
    match traverse_nodes b ucbFn initUCB bot arena (arena.length + 1) 0 s0 with
    | none => none
    | some (leaf, s1, tlog, te) =>
      match expand_leaf b arena leaf s1 with
      | (arena2, newLeaf, s2) =>
        match rollout b rng k fuel s2 with
        | none => none
        | some (s3, k2) =>
          match b.points_values s3 with
          | none => none
          | some winValue =>
            thinkLoop b ucbFn initUCB bot s0 rng fuel n
              (backpropagate arena2 newLeaf (winValue bot))
              k2 (log ++ tlog) (e || te)

/-- The Search Driver (mcts_modified.py, think, lines 212-248).  Determines
the bot's identity as the player to move, builds the root owning the legal
actions of the input state (the MCTSNode constructor is modelled from the
spec: fresh statistics and no children), runs num_nodes iterations, and
asks get_best_action.  The result carries the final arena, the ghost ucb
log and early-return flag, and the recommended action.  rootNode is the
MCTSNode(parent=None, parent_action=None, action_list=legal_actions(state))
built at line 223, modelled from the spec's Search Node record. -/
def rootNode {S : Type} (b : Board S) (s : S) : NodeData :=
  { parent := none, parent_action := none,
    untried_actions := b.legal_actions s,
    wins := 0, visits := 0, child_nodes := [] }

/-- The driver itself: run num_nodes iterations from the fresh root, then
recommend. -/
def think {S U : Type} [LinearOrder U] (b : Board S)
    (ucbFn : ℤ → ℕ → ℕ → Bool → U) (initUCB : U) (rng : ℕ → ℕ) (fuel : ℕ)
    (current_state : S) :
    Option (List NodeData × List (ℕ × ℕ) × Bool × Option Action) :=
  match thinkLoop b ucbFn initUCB (b.current_player current_state) current_state
      rng fuel num_nodes [rootNode b current_state] 0 [] false with
  | none => none
  | some (arena, _, log, e) => some (arena, log, e, get_best_action arena 0)

/-- The scoring function actually used by the program: the real-valued ucb
applied to the child's statistics. -/
noncomputable def ucbFnR : ℤ → ℕ → ℕ → Bool → ℝ :=
  fun wins visits parentVisits flag =>
    ucb (wins : ℝ) (visits : ℝ) (parentVisits : ℝ) flag

/-- think with the program's own scoring: real-valued ucb and initial best
−999999. -/
noncomputable def thinkR {S : Type} (b : Board S) (rng : ℕ → ℕ) (fuel : ℕ)
    (s : S) : Option (List NodeData × List (ℕ × ℕ) × Bool × Option Action) :=
  think b ucbFnR (-999999 : ℝ) rng fuel s

/-- Sum of the visit counts of the root's children. -/
def rootChildSum (arena : List NodeData) : ℕ :=
  ((getN arena 0).child_nodes.map (fun q => (getN arena q.2).visits)).sum

/-- Decidability of the parent-shape condition used by WF below. -/
instance {α : Type} (o : Option α) (P : α → Prop) [DecidablePred P] :
    Decidable (∃ x, o = some x ∧ P x) :=
  match o with
  | none => isFalse (by simp)
  | some a =>
    if h : P a then isTrue ⟨a, rfl, h⟩
    else isFalse (by simp [h])

/-- Well-formedness of an arena, as the search driver maintains it: a root
exists at index 0 with no parent, every other node's parent reference points
strictly below it, every children entry points strictly above its owner, is
in range, and back-references its owner, and the child indices of each node
are distinct. -/
def WF (arena : List NodeData) : Prop :=
  0 < arena.length ∧
  (getN arena 0).parent = none ∧
  (∀ j, j < arena.length → 0 < j →
    ∃ p, (getN arena j).parent = some p ∧ p < j) ∧
  (∀ i, i < arena.length → ∀ q ∈ (getN arena i).child_nodes,
    i < q.2 ∧ q.2 < arena.length ∧ (getN arena q.2).parent = some i) ∧
  (∀ i, i < arena.length → ((getN arena i).child_nodes.map Prod.snd).Nodup)

instance (arena : List NodeData) : Decidable (WF arena) := by
  unfold WF; infer_instance

/-- Every child stored in any node's children mapping has been visited at
least once — the invariant that holds at the start and end of every think
iteration (C10). -/
def childVisitsPos (arena : List NodeData) : Prop :=
  ∀ i, i < arena.length → ∀ q ∈ (getN arena i).child_nodes,
    1 ≤ (getN arena q.2).visits

/-- Every node that owns at least one child has been visited at least once
(its visits are read as node.parent.visits by each child's ucb call). -/
def ownerVisited (arena : List NodeData) : Prop :=
  ∀ i, i < arena.length → (getN arena i).child_nodes ≠ [] →
    1 ≤ (getN arena i).visits

/-- Each node's untried actions are distinct and disjoint from its children
keys, so a popped action is always a fresh key of the children dict. -/
def freshKeys (arena : List NodeData) : Prop :=
  ∀ i, i < arena.length → (getN arena i).untried_actions.Nodup ∧
    ∀ a ∈ (getN arena i).untried_actions,
      a ∉ (getN arena i).child_nodes.map Prod.fst

/-- The arena invariant the search driver maintains across iterations. -/
def Inv (arena : List NodeData) : Prop :=
  WF arena ∧ childVisitsPos arena ∧ ownerVisited arena ∧ freshKeys arena

/-- The wins/visits ratio of node j, as computed by get_best_action and by
the ucb exploitation term. -/
def rate (arena : List NodeData) (j : ℕ) : ℚ :=
  ((getN arena j).wins : ℚ) / ((getN arena j).visits : ℚ)

/-- A one-move game used to evaluate theorems: the start state false has one
legal action leading to the terminal state true, a win for player 1. -/
def oneMoveBoard : Board Bool :=
  { current_player := fun _ => 1
    legal_actions := fun s => if s then [] else [(0, 0, 0, 0)]
    next_state := fun _ _ => true
    is_ended := fun s => s
    points_values := fun s =>
      if s then some (fun p => if p = 1 then 1 else -1) else none
    owned_boxes := fun _ _ => 0 }

/-- A one-move game whose only action is an immediate loss for the mover:
its rollout step excludes every legal action and the neutral pool stays
empty. -/
def lossBoard : Board Bool :=
  { current_player := fun _ => 1
    legal_actions := fun s => if s then [] else [(0, 0, 0, 0)]
    next_state := fun _ _ => true
    is_ended := fun s => s
    points_values := fun s =>
      if s then some (fun p => if p = 1 then -1 else 1) else none
    owned_boxes := fun _ _ => 0 }

/-- First legal action of the counterexample game: non-terminal, but claims
sub-board (0, 0) for the mover. -/
def cexA1 : Action := (0, 0, 0, 0)

/-- Second legal action of the counterexample game: an immediate win for
the mover. -/
def cexA2 : Action := (1, 1, 0, 0)

/-- The counterexample game for the rollout win short-circuit: at state 0
the mover (player 1) can win immediately with cexA2, but cexA1 comes first
in the legal-action order and claims a sub-board. -/
def Cboard : Board (Fin 3) :=
  { current_player := fun _ => 1
    legal_actions := fun s =>
      if s = 0 then [cexA1, cexA2] else if s = 1 then [cexA2] else []
    next_state := fun s a =>
      if s = 0 ∧ a = cexA1 then 1
      else if s = 0 ∧ a = cexA2 then 2
      else if s = 1 ∧ a = cexA2 then 2
      else s
    is_ended := fun s => decide (s = 2)
    points_values := fun s =>
      if s = 2 then some (fun p => if p = 1 then 1 else -1) else none
    owned_boxes := fun s rc => if s = 1 ∧ rc = (0, 0) then 1 else 0 }

/-- A three-node arena (root with two visited children of distinct win
rates) used to evaluate the action-recommender theorem. -/
def recArena : List NodeData :=
  [ { parent := none, parent_action := none, untried_actions := [],
      wins := 2, visits := 3, child_nodes := [((0, 0, 0, 0), 1), ((1, 1, 1, 1), 2)] },
    { parent := some 0, parent_action := some (0, 0, 0, 0), untried_actions := [],
      wins := 1, visits := 2, child_nodes := [] },
    { parent := some 0, parent_action := some (1, 1, 1, 1), untried_actions := [],
      wins := 1, visits := 1, child_nodes := [] } ]

/-- A concrete two-node arena (root and one child) used to evaluate the
backpropagation theorem. -/
def bpArena : List NodeData :=
  [ { parent := none, parent_action := none, untried_actions := [],
      wins := 0, visits := 2, child_nodes := [((0, 0, 0, 0), 1)] },
    { parent := some 0, parent_action := some (0, 0, 0, 0),
      untried_actions := [(1, 1, 1, 1)], wins := 1, visits := 1,
      child_nodes := [] } ]

/-- A computable scoring function (constantly 0) used to evaluate the
search-driver theorems, which hold for every scoring function. -/
def ucbQ0 : ℤ → ℕ → ℕ → Bool → ℚ := fun _ _ _ _ => 0

/-- A concrete complete run of think's simulation loop (all num_nodes = 100
iterations) on the one-move game with the constant scoring and a constant
random stream. -/
def wLoop : Option (List NodeData × ℕ × List (ℕ × ℕ) × Bool) :=
  thinkLoop oneMoveBoard ucbQ0 (-999999 : ℚ) (oneMoveBoard.current_player false)
    false (fun _ => 0) 1 num_nodes [rootNode oneMoveBoard false] 0 [] false

/-- The result of the concrete run (default never used: the run succeeds). -/
def wOut : List NodeData × ℕ × List (ℕ × ℕ) × Bool :=
  wLoop.getD ([], 0, [], false)

instance : DecidableEq (List (ℕ × ℕ) × Bool) :=
  instDecidableEqProd

instance : DecidableEq (ℕ × List (ℕ × ℕ) × Bool) :=
  instDecidableEqProd

instance : DecidableEq (List NodeData × ℕ × List (ℕ × ℕ) × Bool) :=
  instDecidableEqProd

-- Lemmas and theorems.

theorem length_upd (arena : List NodeData) (i : ℕ) (f : NodeData → NodeData) :
    (upd arena i f).length = arena.length := by
  induction arena generalizing i with
  | nil => rfl
  | cons x xs ih => cases i with
    | zero => rfl
    | succ n => simp [upd, ih]

theorem getN_oob (arena : List NodeData) (x : ℕ) (hx : arena.length ≤ x) :
    getN arena x = noNode := by
  induction arena generalizing x with
  | nil => cases x <;> rfl
  | cons y ys ih => cases x with
    | zero => simp at hx
    | succ n => exact ih n (by simpa using hx)

theorem getN_upd_self (arena : List NodeData) (i : ℕ) (f : NodeData → NodeData)
    (hi : i < arena.length) : getN (upd arena i f) i = f (getN arena i) := by
  induction arena generalizing i with
  | nil => simp at hi
  | cons x xs ih => cases i with
    | zero => rfl
    | succ n => exact ih n (by simpa using hi)

theorem getN_upd_ne (arena : List NodeData) (i : ℕ) (f : NodeData → NodeData)
    (x : ℕ) (hx : x ≠ i) : getN (upd arena i f) x = getN arena x := by
  induction arena generalizing i x with
  | nil => rfl
  | cons y ys ih => cases i with
    | zero => cases x with
      | zero => exact absurd rfl hx
      | succ n => rfl
    | succ n => cases x with
      | zero => rfl
      | succ m => exact ih n m (by omega)

theorem getN_append_lt (arena l : List NodeData) (x : ℕ) (hx : x < arena.length) :
    getN (arena ++ l) x = getN arena x := by
  induction arena generalizing x with
  | nil => simp at hx
  | cons y ys ih => cases x with
    | zero => rfl
    | succ n => exact ih n (by simpa using hx)

theorem getN_append_self (arena : List NodeData) (nd : NodeData) :
    getN (arena ++ [nd]) arena.length = nd := by
  induction arena with
  | nil => rfl
  | cons y ys ih => simpa [getN] using ih

theorem getN_append_ge (arena l : List NodeData) (x : ℕ)
    (hx : arena.length ≤ x) : getN (arena ++ l) x = getN l (x - arena.length) := by
  induction arena generalizing x with
  | nil => simp
  | cons y ys ih => cases x with
    | zero => simp at hx
    | succ n =>
      have := ih n (by simpa using hx)
      simpa [getN] using this

theorem chainF_succ_none (fuel : ℕ) (arena : List NodeData) (i : ℕ)
    (h : (getN arena i).parent = none) : chainF (fuel + 1) arena i = [i] := by
  unfold chainF; rw [h]

theorem chainF_succ_lt (fuel : ℕ) (arena : List NodeData) (i p : ℕ)
    (h : (getN arena i).parent = some p) (hlt : p < i) :
    chainF (fuel + 1) arena i = i :: chainF fuel arena p := by
  unfold chainF; rw [h]
  show (if p < i then i :: chainF fuel arena p else [i]) = _
  rw [if_pos hlt]
  cases fuel <;> rfl

theorem chainF_succ_ge (fuel : ℕ) (arena : List NodeData) (i p : ℕ)
    (h : (getN arena i).parent = some p) (hlt : ¬ p < i) :
    chainF (fuel + 1) arena i = [i] := by
  unfold chainF; rw [h]
  show (if p < i then i :: chainF fuel arena p else [i]) = _
  rw [if_neg hlt]

theorem parent_upd_bump (arena : List NodeData) (i : ℕ) (won : ℤ) (y : ℕ) :
    (getN (upd arena i (bumpStat won)) y).parent = (getN arena y).parent := by
  by_cases hy : y = i
  · subst hy
    by_cases hi : y < arena.length
    · rw [getN_upd_self arena y _ hi]; rfl
    · rw [getN_oob _ y (by rw [length_upd]; omega), getN_oob arena y (by omega)]
  · rw [getN_upd_ne arena i _ y hy]

theorem backpropF_succ_none (fuel : ℕ) (arena : List NodeData) (i : ℕ) (won : ℤ)
    (h : (getN arena i).parent = none) :
    backpropF (fuel + 1) arena i won = upd arena i (bumpStat won) := by
  unfold backpropF; rw [parent_upd_bump, h]

theorem backpropF_succ_lt (fuel : ℕ) (arena : List NodeData) (i p : ℕ) (won : ℤ)
    (h : (getN arena i).parent = some p) (hlt : p < i) :
    backpropF (fuel + 1) arena i won =
      backpropF fuel (upd arena i (bumpStat won)) p won := by
  unfold backpropF; rw [parent_upd_bump, h]
  show (if p < i then backpropF fuel (upd arena i (bumpStat won)) p won
        else upd arena i (bumpStat won)) = _
  rw [if_pos hlt]
  cases fuel <;> rfl

theorem backpropF_succ_ge (fuel : ℕ) (arena : List NodeData) (i p : ℕ) (won : ℤ)
    (h : (getN arena i).parent = some p) (hlt : ¬ p < i) :
    backpropF (fuel + 1) arena i won = upd arena i (bumpStat won) := by
  unfold backpropF; rw [parent_upd_bump, h]
  show (if p < i then backpropF fuel (upd arena i (bumpStat won)) p won
        else upd arena i (bumpStat won)) = _
  rw [if_neg hlt]

theorem chainF_mem_le (fuel : ℕ) (arena : List NodeData) (i : ℕ) :
    ∀ x ∈ chainF fuel arena i, x ≤ i := by
  induction fuel generalizing i with
  | zero => intro x hx; simp [chainF] at hx
  | succ f ih =>
    intro x hx
    rcases hp : (getN arena i).parent with _ | p
    · rw [chainF_succ_none f arena i hp] at hx
      simp at hx; omega
    · by_cases hlt : p < i
      · rw [chainF_succ_lt f arena i p hp hlt] at hx
        rcases List.mem_cons.mp hx with h | h
        · omega
        · have := ih p x h; omega
      · rw [chainF_succ_ge f arena i p hp hlt] at hx
        simp at hx; omega

theorem chainF_ne_nil (fuel : ℕ) (arena : List NodeData) (i : ℕ)
    (hf : 0 < fuel) : chainF fuel arena i ≠ [] := by
  cases fuel with
  | zero => omega
  | succ f =>
    rcases hp : (getN arena i).parent with _ | p
    · rw [chainF_succ_none f arena i hp]; simp
    · by_cases hlt : p < i
      · rw [chainF_succ_lt f arena i p hp hlt]; simp
      · rw [chainF_succ_ge f arena i p hp hlt]; simp

theorem chainF_head (fuel : ℕ) (arena : List NodeData) (i : ℕ) (hf : 0 < fuel) :
    (chainF fuel arena i).head? = some i := by
  cases fuel with
  | zero => omega
  | succ f =>
    rcases hp : (getN arena i).parent with _ | p
    · rw [chainF_succ_none f arena i hp]; rfl
    · by_cases hlt : p < i
      · rw [chainF_succ_lt f arena i p hp hlt]; rfl
      · rw [chainF_succ_ge f arena i p hp hlt]; rfl

theorem chainF_congr (fuel : ℕ) (A B : List NodeData) (i : ℕ)
    (h : ∀ y, y ≤ i → (getN A y).parent = (getN B y).parent) :
    chainF fuel A i = chainF fuel B i := by
  induction fuel generalizing i with
  | zero => rfl
  | succ f ih =>
    rcases hp : (getN B i).parent with _ | p
    · rw [chainF_succ_none f A i ((h i le_rfl).trans hp),
        chainF_succ_none f B i hp]
    · by_cases hlt : p < i
      · rw [chainF_succ_lt f A i p ((h i le_rfl).trans hp) hlt,
          chainF_succ_lt f B i p hp hlt,
          ih p (fun y hy => h y (by omega))]
      · rw [chainF_succ_ge f A i p ((h i le_rfl).trans hp) hlt,
          chainF_succ_ge f B i p hp hlt]

theorem backpropF_length (fuel : ℕ) (arena : List NodeData) (i : ℕ) (won : ℤ) :
    (backpropF fuel arena i won).length = arena.length := by
  induction fuel generalizing arena i with
  | zero => rfl
  | succ f ih =>
    rcases hp : (getN arena i).parent with _ | p
    · rw [backpropF_succ_none f arena i won hp, length_upd]
    · by_cases hlt : p < i
      · rw [backpropF_succ_lt f arena i p won hp hlt, ih, length_upd]
      · rw [backpropF_succ_ge f arena i p won hp hlt, length_upd]

theorem backpropF_getN (fuel : ℕ) (arena : List NodeData) (i : ℕ) (won : ℤ)
    (hi : i < arena.length) (x : ℕ) :
    getN (backpropF fuel arena i won) x =
      if x ∈ chainF fuel arena i then
        { getN arena x with wins := (getN arena x).wins + won,
                            visits := (getN arena x).visits + 1 }
      else getN arena x := by
  induction fuel generalizing arena i with
  | zero => simp [backpropF, chainF]
  | succ f ih =>
    have hself : getN (upd arena i (bumpStat won)) i = bumpStat won (getN arena i) :=
      getN_upd_self arena i _ hi
    rcases hp : (getN arena i).parent with _ | p
    · rw [backpropF_succ_none f arena i won hp, chainF_succ_none f arena i hp]
      by_cases hx : x = i
      · subst hx; rw [hself]; simp [bumpStat]
      · rw [getN_upd_ne arena i _ x hx]; simp [hx]
    · by_cases hlt : p < i
      · rw [backpropF_succ_lt f arena i p won hp hlt,
          chainF_succ_lt f arena i p hp hlt]
        have hplen : p < (upd arena i (bumpStat won)).length := by
          rw [length_upd]; omega
        rw [ih _ p hplen]
        have hcongr : chainF f (upd arena i (bumpStat won)) p = chainF f arena p :=
          chainF_congr f _ _ p (fun y _ => parent_upd_bump arena i won y)
        rw [hcongr]
        by_cases hx : x = i
        · subst hx
          have hnot : x ∉ chainF f arena p := by
            intro hmem
            have := chainF_mem_le f arena p x hmem
            omega
          rw [if_neg hnot, hself, if_pos (List.mem_cons_self x _)]
          simp [bumpStat]
        · rw [getN_upd_ne arena i _ x hx]
          by_cases hmem : x ∈ chainF f arena p
          · rw [if_pos hmem, if_pos (List.mem_cons_of_mem i hmem)]
          · rw [if_neg hmem, if_neg (by
              intro hc
              rcases List.mem_cons.mp hc with h | h
              · exact hx h
              · exact hmem h)]
      · rw [backpropF_succ_ge f arena i p won hp hlt,
          chainF_succ_ge f arena i p hp hlt]
        by_cases hx : x = i
        · subst hx; rw [hself]; simp [bumpStat]
        · rw [getN_upd_ne arena i _ x hx]; simp [hx]

theorem chainF_getLast_zero (arena : List NodeData) (hwf : WF arena) :
    ∀ fuel i, i < fuel → i < arena.length →
    (chainF fuel arena i).getLast? = some 0 := by
  intro fuel
  induction fuel with
  | zero => intro i hif; omega
  | succ f ih =>
    intro i hif hil
    rcases Nat.eq_zero_or_pos i with hz | hpos
    · subst hz
      rw [chainF_succ_none f arena 0 hwf.2.1]; rfl
    · obtain ⟨p, hp, hplt⟩ := hwf.2.2.1 i hil hpos
      rw [chainF_succ_lt f arena i p hp hplt]
      have hres := ih p (by omega) (by omega)
      have hne := chainF_ne_nil f arena p (by omega)
      rcases hl : chainF f arena p with _ | ⟨y, ys⟩
      · exact absurd hl hne
      · rw [hl] at hres
        rw [List.getLast?_cons_cons]
        exact hres

/-- C2.  For every node i of a well-formed arena and every outcome value won,
backpropagate(i, won) adds exactly won to wins and exactly 1 to visits at
every node on the parent chain from i to the root (the chain starts at i and
ends at the root, index 0, both inclusive), and changes no field of any node
off that chain; on-chain nodes keep every other field unchanged, as the
record update in the statement shows. -/
theorem backpropagate_path_effect (arena : List NodeData) (i : ℕ) (won : ℤ)
    (hwf : WF arena) (hi : i < arena.length) :
    (backpropagate arena i won).length = arena.length ∧
    (chain arena i).head? = some i ∧
    (chain arena i).getLast? = some 0 ∧
    (∀ x, x ∈ chain arena i →
      getN (backpropagate arena i won) x =
        { getN arena x with wins := (getN arena x).wins + won,
                            visits := (getN arena x).visits + 1 }) ∧
    (∀ x, x ∉ chain arena i → getN (backpropagate arena i won) x = getN arena x) := by
  simp only [backpropagate, chain]
  refine ⟨backpropF_length _ _ _ _, chainF_head _ _ _ (by omega),
    chainF_getLast_zero arena hwf (i + 1) i (by omega) hi, ?_, ?_⟩
  · intro x hx
    rw [backpropF_getN (i + 1) arena i won hi x, if_pos hx]
  · intro x hx
    rw [backpropF_getN (i + 1) arena i won hi x, if_neg hx]

/-- Witness for C2 on the concrete two-node arena, backpropagating the
outcome 1 from the child node 1. -/
theorem backpropagate_path_effect_witness :
    (WF bpArena ∧ 1 < bpArena.length) ∧
    ((backpropagate bpArena 1 1).length = bpArena.length ∧
     (chain bpArena 1).head? = some 1 ∧
     (chain bpArena 1).getLast? = some 0 ∧
     (∀ x, x ∈ chain bpArena 1 →
       getN (backpropagate bpArena 1 1) x =
         { getN bpArena x with wins := (getN bpArena x).wins + 1,
                               visits := (getN bpArena x).visits + 1 }) ∧
     (∀ x, x ∉ chain bpArena 1 → getN (backpropagate bpArena 1 1) x = getN bpArena x)) :=
  ⟨⟨by decide, by decide⟩, backpropagate_path_effect bpArena 1 1 (by decide) (by decide)⟩

/-- C1.  In the Selector's UCB scoring, the branch is chosen by whether the
player to move at the parent's state is the searching bot (the flag passed by
traverse_nodes is bot_identity == board.current_player(state)).  When the bot
is to move the score is wins/visits + 2·√(ln(parent.visits)/visits) and is
strictly increasing in wins at fixed positive visits; when the opponent is to
move the score is (1 − wins/visits) + 2·√(ln(parent.visits)/visits) and is
strictly decreasing in wins. -/
theorem ucb_perspective_law (bot cur : ℕ) (w w' pv v : ℝ)
    (hv : 0 < v) (hww : w < w') :
    (bot = cur →
      ucb w v pv (bot == cur) = w / v + 2 * Real.sqrt (Real.log pv / v) ∧
      ucb w v pv (bot == cur) < ucb w' v pv (bot == cur)) ∧
    (bot ≠ cur →
      ucb w v pv (bot == cur) = (1 - w / v) + 2 * Real.sqrt (Real.log pv / v) ∧
      ucb w' v pv (bot == cur) < ucb w v pv (bot == cur)) := by
  have hdiv : w / v < w' / v := by
    exact div_lt_div_of_pos_right hww hv
  constructor
  · intro h
    have hb : (bot == cur) = true := by simp [h]
    rw [hb]
    constructor
    · simp [ucb, explore_faction]
    · simp only [ucb, if_pos rfl]
      exact add_lt_add_right hdiv _
  · intro h
    have hb : (bot == cur) = false := by simp [h]
    rw [hb]
    constructor
    · simp [ucb, explore_faction]
    · simp only [ucb, Bool.false_eq_true, if_neg, reduceIte]
      have : 1 - w' / v < 1 - w / v := by linarith
      exact add_lt_add_right this _

/-- Witness for C1 at bot = cur = 1 and bot = 1, cur = 2, with
w = 0, w' = 1, v = 1, pv = 1. -/
theorem ucb_perspective_law_witness :
    ((0 : ℝ) < 1 ∧ (0 : ℝ) < 1) ∧
    ((1 = 1 →
      ucb 0 1 1 ((1 : ℕ) == 1) = 0 / 1 + 2 * Real.sqrt (Real.log 1 / 1) ∧
      ucb 0 1 1 ((1 : ℕ) == 1) < ucb 1 1 1 ((1 : ℕ) == 1)) ∧
     ((1 : ℕ) ≠ 2 →
      ucb 0 1 1 ((1 : ℕ) == 2) = (1 - 0 / 1) + 2 * Real.sqrt (Real.log 1 / 1) ∧
      ucb 1 1 1 ((1 : ℕ) == 2) < ucb 0 1 1 ((1 : ℕ) == 2))) := by
  refine ⟨⟨one_pos, one_pos⟩, ?_, ?_⟩
  · exact fun h => (ucb_perspective_law 1 1 0 1 1 1 one_pos one_pos).1 h
  · exact fun h => (ucb_perspective_law 1 2 0 1 1 1 one_pos one_pos).2 h

theorem upd_congr (arena : List NodeData) (i : ℕ) (f g : NodeData → NodeData)
    (h : f (getN arena i) = g (getN arena i)) : upd arena i f = upd arena i g := by
  induction arena generalizing i with
  | nil => rfl
  | cons x xs ih =>
    cases i with
    | zero =>
      have hx : f x = g x := h
      simp [upd, hx]
    | succ n =>
      have hx : f (getN xs n) = g (getN xs n) := h
      simp [upd, ih n hx]

theorem dictInsert_fresh (l : List (Action × ℕ)) (a : Action) (v : ℕ)
    (h : a ∉ l.map Prod.fst) : dictInsert l a v = l ++ [(a, v)] := by
  induction l with
  | nil => rfl
  | cons x xs ih =>
    obtain ⟨c, w⟩ := x
    simp only [List.map_cons, List.mem_cons] at h
    push_neg at h
    unfold dictInsert
    rw [if_neg (fun hca => h.1 hca.symm), ih h.2]
    simp

theorem expand_leaf_none {S : Type} (b : Board S) (arena : List NodeData)
    (i : ℕ) (s : S) (h : (getN arena i).untried_actions.getLast? = none) :
    expand_leaf b arena i s = (arena, i, s) := by
  unfold expand_leaf; rw [h]

theorem expand_leaf_some {S : Type} (b : Board S) (arena : List NodeData)
    (i : ℕ) (s : S) (a : Action)
    (h : (getN arena i).untried_actions.getLast? = some a) :
    expand_leaf b arena i s =
      (upd arena i (fun nd =>
          { nd with untried_actions := nd.untried_actions.dropLast,
                    child_nodes := dictInsert nd.child_nodes a arena.length }) ++
        [{ parent := some i, parent_action := some a,
           untried_actions := b.legal_actions (b.next_state s a),
           wins := 0, visits := 0, child_nodes := [] }],
       arena.length, b.next_state s a) := by
  unfold expand_leaf; rw [h]

/-- C8.  For a node with at least one untried action (written pre ++ [a], so
that a is the most recently added one), expand_leaf removes exactly a (stack
order: Python list.pop), creates a child node whose action list is the legal
actions of next_state(state, a) and whose statistics are fresh, registers it
under a at the end of the node's children mapping (the key a is new, by the
freshness hypothesis), appends it to the arena, and returns the pair (new
child, next state); for a node with no untried actions it returns the input
unchanged and modifies nothing. -/
theorem expand_leaf_behavior {S : Type} (b : Board S) (arena : List NodeData)
    (i : ℕ) (s : S) (hi : i < arena.length) :
    ((getN arena i).untried_actions = [] → expand_leaf b arena i s = (arena, i, s)) ∧
    (∀ pre a, (getN arena i).untried_actions = pre ++ [a] →
      a ∉ (getN arena i).child_nodes.map Prod.fst →
      expand_leaf b arena i s =
        (upd arena i (fun nd =>
            { nd with untried_actions := pre,
                      child_nodes := nd.child_nodes ++ [(a, arena.length)] }) ++
          [{ parent := some i, parent_action := some a,
             untried_actions := b.legal_actions (b.next_state s a),
             wins := 0, visits := 0, child_nodes := [] }],
         arena.length, b.next_state s a)) := by
  constructor
  · intro h
    exact expand_leaf_none b arena i s (by rw [h]; rfl)
  · intro pre a hu hfresh
    rw [expand_leaf_some b arena i s a (by rw [hu]; exact List.getLast?_concat pre)]
    have hfg : (fun nd =>
        { nd with untried_actions := nd.untried_actions.dropLast,
                  child_nodes := dictInsert nd.child_nodes a arena.length })
          (getN arena i) =
        (fun nd =>
        { nd with untried_actions := pre,
                  child_nodes := nd.child_nodes ++ [(a, arena.length)] })
          (getN arena i) := by
      show ({ getN arena i with
          untried_actions := (getN arena i).untried_actions.dropLast,
          child_nodes := dictInsert (getN arena i).child_nodes a arena.length }
          : NodeData) =
        { getN arena i with
          untried_actions := pre,
          child_nodes := (getN arena i).child_nodes ++ [(a, arena.length)] }
      rw [hu, List.dropLast_concat, dictInsert_fresh _ _ _ hfresh]
    have hupd : upd arena i (fun nd =>
        { nd with untried_actions := nd.untried_actions.dropLast,
                  child_nodes := dictInsert nd.child_nodes a arena.length }) =
      upd arena i (fun nd =>
        { nd with untried_actions := pre,
                  child_nodes := nd.child_nodes ++ [(a, arena.length)] }) :=
      upd_congr arena i _ _ hfg
    rw [hupd]

/-- Witness for C8: expanding the child node of the two-node arena, whose
single untried action is (1,1,1,1), under the one-move game. -/
theorem expand_leaf_behavior_witness :
    (1 < bpArena.length) ∧
    (((getN bpArena 1).untried_actions = [] →
        expand_leaf oneMoveBoard bpArena 1 false = (bpArena, 1, false)) ∧
     (∀ pre a, (getN bpArena 1).untried_actions = pre ++ [a] →
        a ∉ (getN bpArena 1).child_nodes.map Prod.fst →
        expand_leaf oneMoveBoard bpArena 1 false =
          (upd bpArena 1 (fun nd =>
              { nd with untried_actions := pre,
                        child_nodes := nd.child_nodes ++ [(a, bpArena.length)] }) ++
            [{ parent := some 1, parent_action := some a,
               untried_actions := oneMoveBoard.legal_actions
                 (oneMoveBoard.next_state false a),
               wins := 0, visits := 0, child_nodes := [] }],
           bpArena.length, oneMoveBoard.next_state false a))) :=
  ⟨by decide, expand_leaf_behavior oneMoveBoard bpArena 1 false (by decide)⟩

/-- C5.  Asking the Action Recommender for a decision at a root with no
children yields none — the Python None sentinel that signals the
no-decision failure condition — and never an ordinary action value. -/
theorem get_best_action_no_children (arena : List NodeData) (i : ℕ)
    (h : (getN arena i).child_nodes = []) :
    get_best_action arena i = none := by
  unfold get_best_action
  rw [h]
  rfl

/-- Witness for C5 on a one-node arena whose root has no children. -/
theorem get_best_action_no_children_witness :
    (getN [noNode] 0).child_nodes = [] ∧ get_best_action [noNode] 0 = none :=
  ⟨by decide, get_best_action_no_children [noNode] 0 (by decide)⟩

/-- C9.  At a rollout step on a non-terminal state where the scan chooses no
action and the neutral candidate pool comes out empty, rollout fails with
none at that very step — no move is applied and no state is returned (the
model of random.choice raising IndexError on an empty list) — for every
fuel budget. -/
theorem rollout_empty_pool_fatal {S : Type} (b : Board S) (rng : ℕ → ℕ)
    (k fuel : ℕ) (s : S) (hend : b.is_ended s = false)
    (hscan : rolloutScan b s (b.current_player s) (b.legal_actions s) [] = (none, [])) :
    rollout b rng k fuel s = none := by
  cases fuel with
  | zero => simp [rollout, hend]
  | succ f =>
    unfold rollout
    rw [hend, hscan]
    rfl

/-- Witness for C9 on the one-move game whose single action is an immediate
loss for the mover: the scan excludes it, the pool is empty, and rollout
fails. -/
theorem rollout_empty_pool_fatal_witness :
    (lossBoard.is_ended false = false ∧
     rolloutScan lossBoard false (lossBoard.current_player false)
       (lossBoard.legal_actions false) [] = (none, [])) ∧
    rollout lossBoard (fun _ => 0) 0 3 false = none :=
  ⟨⟨by decide, by decide⟩,
   rollout_empty_pool_fatal lossBoard (fun _ => 0) 0 3 false (by decide) (by decide)⟩

theorem rolloutScan_cons_pick {S : Type} (b : Board S) (s : S) (cur : ℕ)
    (a : Action) (rest v : List Action) (h : classify b s cur a = StepClass.pick) :
    rolloutScan b s cur (a :: rest) v = (some a, v) := by
  unfold rolloutScan; rw [h]

theorem rolloutScan_cons_skip {S : Type} (b : Board S) (s : S) (cur : ℕ)
    (a : Action) (rest v : List Action) (h : classify b s cur a = StepClass.skip) :
    rolloutScan b s cur (a :: rest) v = rolloutScan b s cur rest v := by
  conv_lhs => unfold rolloutScan
  rw [h]

theorem rolloutScan_cons_neutral {S : Type} (b : Board S) (s : S) (cur : ℕ)
    (a : Action) (rest v : List Action) (h : classify b s cur a = StepClass.neutral) :
    rolloutScan b s cur (a :: rest) v = rolloutScan b s cur rest (v ++ [a]) := by
  conv_lhs => unfold rolloutScan
  rw [h]

theorem rolloutScan_fst_acc {S : Type} (b : Board S) (s : S) (cur : ℕ)
    (l : List Action) : ∀ v v',
    (rolloutScan b s cur l v).1 = (rolloutScan b s cur l v').1 := by
  induction l with
  | nil => intro v v'; rfl
  | cons a rest ih =>
    intro v v'
    cases hc : classify b s cur a with
    | pick =>
      rw [rolloutScan_cons_pick b s cur a rest v hc,
        rolloutScan_cons_pick b s cur a rest v' hc]
    | skip =>
      rw [rolloutScan_cons_skip b s cur a rest v hc,
        rolloutScan_cons_skip b s cur a rest v' hc]
      exact ih v v'
    | neutral =>
      rw [rolloutScan_cons_neutral b s cur a rest v hc,
        rolloutScan_cons_neutral b s cur a rest v' hc]
      exact ih (v ++ [a]) (v' ++ [a])

theorem rolloutScan_fst_append {S : Type} (b : Board S) (s : S) (cur : ℕ) :
    ∀ pre : List Action, (∀ x ∈ pre, classify b s cur x ≠ StepClass.pick) →
    ∀ (l v : List Action),
    (rolloutScan b s cur (pre ++ l) v).1 = (rolloutScan b s cur l v).1 := by
  intro pre
  induction pre with
  | nil => intro _ l v; rfl
  | cons x xs ih =>
    intro hpre l v
    have hx := hpre x (List.mem_cons_self x xs)
    have hxs : ∀ y ∈ xs, classify b s cur y ≠ StepClass.pick :=
      fun y hy => hpre y (List.mem_cons_of_mem x hy)
    cases hc : classify b s cur x with
    | pick => exact absurd hc hx
    | skip =>
      rw [List.cons_append, rolloutScan_cons_skip b s cur x (xs ++ l) v hc]
      exact ih hxs l v
    | neutral =>
      rw [List.cons_append, rolloutScan_cons_neutral b s cur x (xs ++ l) v hc,
        ih hxs l (v ++ [x])]
      exact rolloutScan_fst_acc b s cur l (v ++ [x]) v

theorem classify_win {S : Type} (b : Board S) (s : S) (cur : ℕ) (w : Action)
    (f : ℕ → ℤ) (hw : b.points_values (b.next_state s w) = some f)
    (hwin : f cur = 1) : classify b s cur w = StepClass.pick := by
  simp only [classify]
  rw [hw]
  show (if f cur = 1 then StepClass.pick
        else if f cur = -1 then StepClass.skip
        else
          if b.owned_boxes (b.next_state s w) (w.1, w.2.1) = cur then StepClass.pick
          else if b.owned_boxes (b.next_state s w) (w.1, w.2.1) = 3 - cur then
            StepClass.skip
          else StepClass.neutral) = StepClass.pick
  rw [if_pos hwin]

/-- C3, counterexample.  At state 0 of the counterexample game, the second
legal action cexA2 leads to a terminal state that is a win for the player to
move, yet the rollout step chooses cexA1 — whose resulting state is not even
terminal — because cexA1 comes first and triggers the sub-board-capture
short-circuit of the heuristic (step 3), so no winning action is chosen at
that step: the claim as stated is false. -/
theorem rollout_win_preempted_cex :
    cexA2 ∈ Cboard.legal_actions 0 ∧
    (Cboard.points_values (Cboard.next_state 0 cexA2)).map
      (fun f => f (Cboard.current_player 0)) = some 1 ∧
    Cboard.is_ended (Cboard.next_state 0 cexA2) = true ∧
    rolloutScan Cboard 0 (Cboard.current_player 0) (Cboard.legal_actions 0) [] =
      (some cexA1, []) ∧
    (Cboard.points_values (Cboard.next_state 0 cexA1)).isNone = true ∧
    cexA1 ≠ cexA2 := by
  decide

/-- C3, amended.  At any rollout step (non-terminal state) where some legal
action w yields a terminal win for the player to move, and no strictly
earlier action in the legal-action order is itself picked by the step-2 win
short-circuit or the step-3 sub-board-capture short-circuit, the Playout
Evaluator chooses the first such winning action w immediately at that step
(by the step-2 short-circuit, not the heuristic or the random neutral pick),
and the step applies w and no other action. -/
theorem rollout_first_win_chosen {S : Type} (b : Board S) (s : S)
    (pre post : List Action) (w : Action) (f : ℕ → ℤ) (rng : ℕ → ℕ) (k fuel : ℕ)
    (hl : b.legal_actions s = pre ++ w :: post)
    (hw : b.points_values (b.next_state s w) = some f)
    (hwin : f (b.current_player s) = 1)
    (hpre : ∀ x ∈ pre, classify b s (b.current_player s) x ≠ StepClass.pick)
    (hend : b.is_ended s = false) :
    (rolloutScan b s (b.current_player s) (b.legal_actions s) []).1 = some w ∧
    rollout b rng k (fuel + 1) s = rollout b rng k fuel (b.next_state s w) := by
  have hcls : classify b s (b.current_player s) w = StepClass.pick :=
    classify_win b s (b.current_player s) w f hw hwin
  have hfst : (rolloutScan b s (b.current_player s) (b.legal_actions s) []).1 =
      some w := by
    rw [hl, rolloutScan_fst_append b s (b.current_player s) pre hpre (w :: post) [],
      rolloutScan_cons_pick b s (b.current_player s) w post [] hcls]
  refine ⟨hfst, ?_⟩
  conv_lhs => unfold rollout
  rw [hend]
  rcases hsc : rolloutScan b s (b.current_player s) (b.legal_actions s) []
    with ⟨o, vv⟩
  rw [hsc] at hfst
  simp only at hfst
  rw [hfst]
  rfl

/-- Witness for the amended C3 on the one-move game: the single legal action
wins immediately and is chosen and applied. -/
theorem rollout_first_win_chosen_witness :
    (oneMoveBoard.legal_actions false = [] ++ (0, 0, 0, 0) :: [] ∧
     oneMoveBoard.points_values (oneMoveBoard.next_state false (0, 0, 0, 0)) =
       some (fun p => if p = 1 then 1 else -1) ∧
     (fun p : ℕ => if p = 1 then (1 : ℤ) else -1)
       (oneMoveBoard.current_player false) = 1 ∧
     (∀ x ∈ ([] : List Action),
       classify oneMoveBoard false (oneMoveBoard.current_player false) x ≠
         StepClass.pick) ∧
     oneMoveBoard.is_ended false = false) ∧
    ((rolloutScan oneMoveBoard false (oneMoveBoard.current_player false)
        (oneMoveBoard.legal_actions false) []).1 = some (0, 0, 0, 0) ∧
     rollout oneMoveBoard (fun _ => 0) 0 (2 + 1) false =
       rollout oneMoveBoard (fun _ => 0) 0 2
         (oneMoveBoard.next_state false (0, 0, 0, 0))) :=
  ⟨⟨rfl, rfl, rfl, by simp, rfl⟩,
   rollout_first_win_chosen oneMoveBoard false [] [] (0, 0, 0, 0)
     (fun p => if p = 1 then 1 else -1) (fun _ => 0) 0 2 rfl rfl rfl
     (by simp) rfl⟩

theorem bestScan_cons (arena : List NodeData) (a : Action) (j : ℕ)
    (rest : List (Action × ℕ)) (bR : ℚ) (act : Option Action) :
    bestScan arena ((a, j) :: rest) bR act =
      if bR < rate arena j then
        bestScan arena rest (rate arena j) ((getN arena j).parent_action)
      else bestScan arena rest bR act := rfl

theorem bestScan_cases (arena : List NodeData) :
    ∀ (l : List (Action × ℕ)) (bR : ℚ) (act : Option Action),
      (bestScan arena l bR act = act ∧ ∀ q ∈ l, rate arena q.2 ≤ bR) ∨
      (∃ l1 q l2, l = l1 ++ q :: l2 ∧
        bestScan arena l bR act = (getN arena q.2).parent_action ∧
        bR < rate arena q.2 ∧
        (∀ r ∈ l1, rate arena r.2 < rate arena q.2) ∧
        (∀ r ∈ l2, rate arena r.2 ≤ rate arena q.2)) := by
  intro l
  induction l with
  | nil => intro bR act; left; exact ⟨rfl, by simp⟩
  | cons x rest ih =>
    intro bR act
    obtain ⟨a, j⟩ := x
    rw [bestScan_cons]
    by_cases hlt : bR < rate arena j
    · rw [if_pos hlt]
      rcases ih (rate arena j) ((getN arena j).parent_action) with
        ⟨heq, hall⟩ | ⟨l1, q, l2, hl, heq, hgt, h1, h2⟩
      · right
        exact ⟨[], (a, j), rest, rfl, heq, hlt, by simp, fun r hr => hall r hr⟩
      · right
        refine ⟨(a, j) :: l1, q, l2, by rw [hl]; rfl, heq, lt_trans hlt hgt, ?_, h2⟩
        intro r hr
        rcases List.mem_cons.mp hr with h | h
        · subst h; exact hgt
        · exact h1 r h
    · rw [if_neg hlt]
      rcases ih bR act with ⟨heq, hall⟩ | ⟨l1, q, l2, hl, heq, hgt, h1, h2⟩
      · left
        refine ⟨heq, ?_⟩
        intro q hq
        rcases List.mem_cons.mp hq with h | h
        · subst h; exact le_of_not_lt hlt
        · exact hall q h
      · right
        refine ⟨(a, j) :: l1, q, l2, by rw [hl]; rfl, heq, hgt, ?_, h2⟩
        intro r hr
        rcases List.mem_cons.mp hr with h | h
        · subst h; exact lt_of_le_of_lt (le_of_not_lt hlt) hgt
        · exact h1 r h

/-- C4.  On a root with at least one child, all children visited (and their
wins bounded below by −visits, as accumulated outcomes in {−1,0,1} always
are), get_best_action returns the parent_action of the child whose
wins/visits ratio is strictly greatest, ties kept by the first child in the
children mapping's stored order (the returned q is preceded only by strictly
smaller rates and followed only by no-greater ones); the returned action is
the parent_action of an existing root child with visits > 0. -/
theorem get_best_action_spec (arena : List NodeData) (i : ℕ)
    (hne : (getN arena i).child_nodes ≠ [])
    (hv : ∀ q ∈ (getN arena i).child_nodes, 0 < (getN arena q.2).visits)
    (hwb : ∀ q ∈ (getN arena i).child_nodes,
      -(((getN arena q.2).visits : ℤ)) ≤ (getN arena q.2).wins) :
    ∃ l1 q l2, (getN arena i).child_nodes = l1 ++ q :: l2 ∧
      get_best_action arena i = (getN arena q.2).parent_action ∧
      0 < (getN arena q.2).visits ∧
      (∀ r ∈ l1, rate arena r.2 < rate arena q.2) ∧
      (∀ r ∈ l2, rate arena r.2 ≤ rate arena q.2) := by
  have hrate : ∀ q ∈ (getN arena i).child_nodes, (-999999 : ℚ) < rate arena q.2 := by
    intro q hq
    have hv' := hv q hq
    have hvq : (0 : ℚ) < ((getN arena q.2).visits : ℚ) := by exact_mod_cast hv'
    have hw2 : -(((getN arena q.2).visits : ℚ)) ≤ ((getN arena q.2).wins : ℚ) := by
      exact_mod_cast hwb q hq
    have h1 : (-1 : ℚ) ≤ rate arena q.2 := by
      unfold rate
      rw [le_div_iff₀ hvq]
      linarith [hw2]
    linarith
  rcases bestScan_cases arena (getN arena i).child_nodes (-999999) none with
    ⟨heq, hall⟩ | ⟨l1, q, l2, hl, heq, hgt, h1, h2⟩
  · exfalso
    obtain ⟨q0, hq0⟩ := List.exists_mem_of_ne_nil (getN arena i).child_nodes hne
    exact absurd (hall q0 hq0) (not_le.mpr (hrate q0 hq0))
  · refine ⟨l1, q, l2, hl, heq,
      hv q (by rw [hl]; exact List.mem_append_right _ (List.mem_cons_self _ _)),
      h1, h2⟩

/-- Witness for C4 on the three-node arena: the second child has the
strictly greatest win rate 1 > 1/2 and its parent_action is returned. -/
theorem get_best_action_spec_witness :
    ((getN recArena 0).child_nodes ≠ [] ∧
     (∀ q ∈ (getN recArena 0).child_nodes, 0 < (getN recArena q.2).visits) ∧
     (∀ q ∈ (getN recArena 0).child_nodes,
       -(((getN recArena q.2).visits : ℤ)) ≤ (getN recArena q.2).wins)) ∧
    (∃ l1 q l2, (getN recArena 0).child_nodes = l1 ++ q :: l2 ∧
      get_best_action recArena 0 = (getN recArena q.2).parent_action ∧
      0 < (getN recArena q.2).visits ∧
      (∀ r ∈ l1, rate recArena r.2 < rate recArena q.2) ∧
      (∀ r ∈ l2, rate recArena r.2 ≤ rate recArena q.2)) :=
  ⟨⟨by decide, by decide, by decide⟩,
   get_best_action_spec recArena 0 (by decide) (by decide) (by decide)⟩

theorem scanChildren_nil {U : Type} [LinearOrder U] (ucbFn : ℤ → ℕ → ℕ → Bool → U)
    (arena : List NodeData) (flag : Bool) (ul : ℕ) (bestU : U)
    (best : Option (Action × ℕ)) (log : List (ℕ × ℕ)) :
    scanChildren ucbFn arena flag ul [] bestU best log = ScanResult.done best log := rfl

theorem scanChildren_cons_early {U : Type} [LinearOrder U]
    (ucbFn : ℤ → ℕ → ℕ → Bool → U) (arena : List NodeData) (flag : Bool) (ul : ℕ)
    (a : Action) (j : ℕ) (rest : List (Action × ℕ)) (bestU : U)
    (best : Option (Action × ℕ)) (log : List (ℕ × ℕ))
    (h : (getN arena j).visits = 0 ∨ 0 < ul) :
    scanChildren ucbFn arena flag ul ((a, j) :: rest) bestU best log =
      ScanResult.early a j log := by
  unfold scanChildren; rw [if_pos h]

theorem scanChildren_cons_lt {U : Type} [LinearOrder U]
    (ucbFn : ℤ → ℕ → ℕ → Bool → U) (arena : List NodeData) (flag : Bool) (ul : ℕ)
    (a : Action) (j : ℕ) (rest : List (Action × ℕ)) (bestU : U)
    (best : Option (Action × ℕ)) (log : List (ℕ × ℕ))
    (h : ¬((getN arena j).visits = 0 ∨ 0 < ul))
    (hlt : bestU < ucbFn (getN arena j).wins (getN arena j).visits (pvOf arena j) flag) :
    scanChildren ucbFn arena flag ul ((a, j) :: rest) bestU best log =
      scanChildren ucbFn arena flag ul rest
        (ucbFn (getN arena j).wins (getN arena j).visits (pvOf arena j) flag)
        (some (a, j)) (log ++ [((getN arena j).visits, pvOf arena j)]) := by
  conv_lhs => unfold scanChildren
  rw [if_neg h, if_pos hlt]

theorem scanChildren_cons_ge {U : Type} [LinearOrder U]
    (ucbFn : ℤ → ℕ → ℕ → Bool → U) (arena : List NodeData) (flag : Bool) (ul : ℕ)
    (a : Action) (j : ℕ) (rest : List (Action × ℕ)) (bestU : U)
    (best : Option (Action × ℕ)) (log : List (ℕ × ℕ))
    (h : ¬((getN arena j).visits = 0 ∨ 0 < ul))
    (hlt : ¬(bestU < ucbFn (getN arena j).wins (getN arena j).visits (pvOf arena j) flag)) :
    scanChildren ucbFn arena flag ul ((a, j) :: rest) bestU best log =
      scanChildren ucbFn arena flag ul rest bestU best
        (log ++ [((getN arena j).visits, pvOf arena j)]) := by
  conv_lhs => unfold scanChildren
  rw [if_neg h, if_neg hlt]

theorem scanChildren_early_mem {U : Type} [LinearOrder U]
    (ucbFn : ℤ → ℕ → ℕ → Bool → U) (arena : List NodeData) (flag : Bool) (ul : ℕ) :
    ∀ (l : List (Action × ℕ)) (bestU : U) (best : Option (Action × ℕ))
      (log : List (ℕ × ℕ)) (a : Action) (j : ℕ) (elog : List (ℕ × ℕ)),
    scanChildren ucbFn arena flag ul l bestU best log = ScanResult.early a j elog →
    (a, j) ∈ l ∧ ((getN arena j).visits = 0 ∨ 0 < ul) := by
  intro l
  induction l with
  | nil =>
    intro bestU best log a j elog h
    rw [scanChildren_nil] at h
    exact absurd h (by simp)
  | cons x rest ih =>
    intro bestU best log a j elog h
    obtain ⟨a', j'⟩ := x
    by_cases hc : (getN arena j').visits = 0 ∨ 0 < ul
    · rw [scanChildren_cons_early ucbFn arena flag ul a' j' rest bestU best log hc] at h
      injection h with h1 h2 h3
      subst h1; subst h2
      exact ⟨List.mem_cons_self _ _, hc⟩
    · by_cases hlt : bestU <
        ucbFn (getN arena j').wins (getN arena j').visits (pvOf arena j') flag
      · rw [scanChildren_cons_lt ucbFn arena flag ul a' j' rest bestU best log hc hlt] at h
        obtain ⟨hm, hz⟩ := ih _ _ _ a j elog h
        exact ⟨List.mem_cons_of_mem _ hm, hz⟩
      · rw [scanChildren_cons_ge ucbFn arena flag ul a' j' rest bestU best log hc hlt] at h
        obtain ⟨hm, hz⟩ := ih _ _ _ a j elog h
        exact ⟨List.mem_cons_of_mem _ hm, hz⟩

theorem scanChildren_done_spec {U : Type} [LinearOrder U]
    (ucbFn : ℤ → ℕ → ℕ → Bool → U) (arena : List NodeData) (flag : Bool) (ul : ℕ) :
    ∀ (l : List (Action × ℕ)) (bestU : U) (best : Option (Action × ℕ))
      (log : List (ℕ × ℕ)) (best' : Option (Action × ℕ)) (log' : List (ℕ × ℕ)),
    scanChildren ucbFn arena flag ul l bestU best log = ScanResult.done best' log' →
    (best' = best ∨ ∃ a j, best' = some (a, j) ∧ (a, j) ∈ l) ∧
    ∃ tail, log' = log ++ tail ∧
      (∀ cv pv, (cv, pv) ∈ tail → ∃ a j, (a, j) ∈ l ∧
        cv = (getN arena j).visits ∧ cv ≠ 0 ∧ pv = pvOf arena j) := by
  intro l
  induction l with
  | nil =>
    intro bestU best log best' log' h
    rw [scanChildren_nil] at h
    injection h with h1 h2
    subst h1; subst h2
    exact ⟨Or.inl rfl, [], by simp, by simp⟩
  | cons x rest ih =>
    intro bestU best log best' log' h
    obtain ⟨a', j'⟩ := x
    by_cases hc : (getN arena j').visits = 0 ∨ 0 < ul
    · rw [scanChildren_cons_early ucbFn arena flag ul a' j' rest bestU best log hc] at h
      exact absurd h (by simp)
    · have hvz : (getN arena j').visits ≠ 0 := fun hz => hc (Or.inl hz)
      by_cases hlt : bestU <
        ucbFn (getN arena j').wins (getN arena j').visits (pvOf arena j') flag
      · rw [scanChildren_cons_lt ucbFn arena flag ul a' j' rest bestU best log hc hlt] at h
        obtain ⟨hb, tail, hlog, htail⟩ := ih _ _ _ best' log' h
        constructor
        · rcases hb with hb | ⟨a0, j0, hb, hm⟩
          · exact Or.inr ⟨a', j', hb, List.mem_cons_self _ _⟩
          · exact Or.inr ⟨a0, j0, hb, List.mem_cons_of_mem _ hm⟩
        · refine ⟨((getN arena j').visits, pvOf arena j') :: tail, ?_, ?_⟩
          · rw [hlog, List.append_assoc]; rfl
          · intro cv pv hmem
            rcases List.mem_cons.mp hmem with hh | hh
            · injection hh with hh1 hh2
              exact ⟨a', j', List.mem_cons_self _ _, hh1, hh1 ▸ hvz, hh2⟩
            · obtain ⟨a0, j0, hm0, hcv, hnz, hpv⟩ := htail cv pv hh
              exact ⟨a0, j0, List.mem_cons_of_mem _ hm0, hcv, hnz, hpv⟩
      · rw [scanChildren_cons_ge ucbFn arena flag ul a' j' rest bestU best log hc hlt] at h
        obtain ⟨hb, tail, hlog, htail⟩ := ih _ _ _ best' log' h
        constructor
        · rcases hb with hb | ⟨a0, j0, hb, hm⟩
          · exact Or.inl hb
          · exact Or.inr ⟨a0, j0, hb, List.mem_cons_of_mem _ hm⟩
        · refine ⟨((getN arena j').visits, pvOf arena j') :: tail, ?_, ?_⟩
          · rw [hlog, List.append_assoc]; rfl
          · intro cv pv hmem
            rcases List.mem_cons.mp hmem with hh | hh
            · injection hh with hh1 hh2
              exact ⟨a', j', List.mem_cons_self _ _, hh1, hh1 ▸ hvz, hh2⟩
            · obtain ⟨a0, j0, hm0, hcv, hnz, hpv⟩ := htail cv pv hh
              exact ⟨a0, j0, List.mem_cons_of_mem _ hm0, hcv, hnz, hpv⟩

theorem traverse_zero {S U : Type} [LinearOrder U] (b : Board S)
    (ucbFn : ℤ → ℕ → ℕ → Bool → U) (initU : U) (bot : ℕ) (arena : List NodeData)
    (i : ℕ) (s : S) : traverse_nodes b ucbFn initU bot arena 0 i s = none := rfl

theorem traverse_stop {S U : Type} [LinearOrder U] (b : Board S)
    (ucbFn : ℤ → ℕ → ℕ → Bool → U) (initU : U) (bot : ℕ) (arena : List NodeData)
    (fuel i : ℕ) (s : S)
    (h : ¬((getN arena i).untried_actions.length < 1 ∧ b.is_ended s = false)) :
    traverse_nodes b ucbFn initU bot arena (fuel + 1) i s = some (i, s, [], false) := by
  unfold traverse_nodes; rw [if_neg h]

theorem traverse_go_early {S U : Type} [LinearOrder U] (b : Board S)
    (ucbFn : ℤ → ℕ → ℕ → Bool → U) (initU : U) (bot : ℕ) (arena : List NodeData)
    (fuel i : ℕ) (s : S) (a : Action) (j : ℕ) (elog : List (ℕ × ℕ))
    (hcond : (getN arena i).untried_actions.length < 1 ∧ b.is_ended s = false)
    (hsc : scanChildren ucbFn arena (bot == b.current_player s)
      (getN arena i).untried_actions.length (getN arena i).child_nodes initU none [] =
      ScanResult.early a j elog) :
    traverse_nodes b ucbFn initU bot arena (fuel + 1) i s =
      some (j, b.next_state s a, elog, true) := by
  unfold traverse_nodes; rw [if_pos hcond, hsc]

theorem traverse_go_none {S U : Type} [LinearOrder U] (b : Board S)
    (ucbFn : ℤ → ℕ → ℕ → Bool → U) (initU : U) (bot : ℕ) (arena : List NodeData)
    (fuel i : ℕ) (s : S) (slog : List (ℕ × ℕ))
    (hcond : (getN arena i).untried_actions.length < 1 ∧ b.is_ended s = false)
    (hsc : scanChildren ucbFn arena (bot == b.current_player s)
      (getN arena i).untried_actions.length (getN arena i).child_nodes initU none [] =
      ScanResult.done none slog) :
    traverse_nodes b ucbFn initU bot arena (fuel + 1) i s = none := by
  unfold traverse_nodes; rw [if_pos hcond, hsc]

theorem traverse_go_some {S U : Type} [LinearOrder U] (b : Board S)
    (ucbFn : ℤ → ℕ → ℕ → Bool → U) (initU : U) (bot : ℕ) (arena : List NodeData)
    (fuel i : ℕ) (s : S) (a : Action) (j : ℕ) (slog : List (ℕ × ℕ))
    (hcond : (getN arena i).untried_actions.length < 1 ∧ b.is_ended s = false)
    (hsc : scanChildren ucbFn arena (bot == b.current_player s)
      (getN arena i).untried_actions.length (getN arena i).child_nodes initU none [] =
      ScanResult.done (some (a, j)) slog) :
    traverse_nodes b ucbFn initU bot arena (fuel + 1) i s =
      match traverse_nodes b ucbFn initU bot arena fuel j (b.next_state s a) with
      | none => none
      | some (r, s', log', e') => some (r, s', slog ++ log', e') := by
  conv_lhs => unfold traverse_nodes
  rw [if_pos hcond, hsc]

theorem traverse_ok {S U : Type} [LinearOrder U] (b : Board S)
    (ucbFn : ℤ → ℕ → ℕ → Bool → U) (initU : U) (bot : ℕ) (arena : List NodeData)
    (hwf : WF arena) (hcp : childVisitsPos arena) (hov : ownerVisited arena) :
    ∀ (fuel i : ℕ) (s : S) (r : ℕ) (s' : S) (log : List (ℕ × ℕ)) (e : Bool),
    i < arena.length →
    traverse_nodes b ucbFn initU bot arena fuel i s = some (r, s', log, e) →
    r < arena.length ∧ e = false ∧ ∀ cv pv, (cv, pv) ∈ log → 0 < cv ∧ 0 < pv := by
  intro fuel
  induction fuel with
  | zero =>
    intro i s r s' log e hi h
    rw [traverse_zero] at h
    exact absurd h (by simp)
  | succ f ih =>
    intro i s r s' log e hi h
    by_cases hcond : (getN arena i).untried_actions.length < 1 ∧ b.is_ended s = false
    · rcases hsc : scanChildren ucbFn arena (bot == b.current_player s)
          (getN arena i).untried_actions.length (getN arena i).child_nodes initU none []
        with ⟨a, j, elog⟩ | ⟨bb, slog⟩
      · exfalso
        obtain ⟨hm, hz⟩ := scanChildren_early_mem ucbFn arena
          (bot == b.current_player s) (getN arena i).untried_actions.length
          (getN arena i).child_nodes initU none [] a j elog hsc
        have h1 : 1 ≤ (getN arena j).visits := hcp i hi (a, j) hm
        have h2 := hcond.1
        rcases hz with hz | hz <;> omega
      · rcases bb with _ | ⟨a, j⟩
        · rw [traverse_go_none b ucbFn initU bot arena f i s slog hcond hsc] at h
          exact absurd h (by simp)
        · rw [traverse_go_some b ucbFn initU bot arena f i s a j slog hcond hsc] at h
          rcases hrec : traverse_nodes b ucbFn initU bot arena f j (b.next_state s a)
            with _ | ⟨r', s'', log', e'⟩
          · rw [hrec] at h; exact absurd h (by simp)
          · rw [hrec] at h
            obtain ⟨hb, tail, hlog, htail⟩ := scanChildren_done_spec ucbFn arena
              (bot == b.current_player s) (getN arena i).untried_actions.length
              (getN arena i).child_nodes initU none [] (some (a, j)) slog hsc
            have hmem : (a, j) ∈ (getN arena i).child_nodes := by
              rcases hb with hb | ⟨a0, j0, hb, hm⟩
              · exact absurd hb (by simp)
              · injection hb with hb1
                injection hb1 with hb2 hb3
                subst hb2; subst hb3
                exact hm
            obtain ⟨hij, hjlen, hpar⟩ := hwf.2.2.2.1 i hi (a, j) hmem
            obtain ⟨hr', he', hlog'⟩ := ih j (b.next_state s a) r' s'' log' e' hjlen hrec
            have h2 := Option.some.inj h
            injection h2 with hr hrest
            injection hrest with hs hrest2
            injection hrest2 with hl he
            subst hr; subst hs; subst hl; subst he
            refine ⟨hr', he', ?_⟩
            intro cv pv hmem2
            rcases List.mem_append.mp hmem2 with hh | hh
            · have hslog : slog = tail := by simpa using hlog
              rw [hslog] at hh
              obtain ⟨a0, j0, hm0, hcv, hnz, hpv⟩ := htail cv pv hh
              obtain ⟨hij0, hjlen0, hpar0⟩ := hwf.2.2.2.1 i hi (a0, j0) hm0
              have hpv0 : pvOf arena j0 = (getN arena i).visits := by
                unfold pvOf
                rw [hpar0]
                rfl
              have hivis : 1 ≤ (getN arena i).visits :=
                hov i hi (List.ne_nil_of_mem hmem)
              constructor
              · omega
              · rw [hpv, hpv0]; omega
            · exact hlog' cv pv hh
    · rw [traverse_stop b ucbFn initU bot arena f i s hcond] at h
      have h2 := Option.some.inj h
      injection h2 with hr hrest
      injection hrest with hs hrest2
      injection hrest2 with hl he
      subst hr; subst hs; subst hl; subst he
      exact ⟨hi, rfl, by simp⟩

theorem backprop_getN (arena : List NodeData) (i : ℕ) (won : ℤ)
    (hi : i < arena.length) (x : ℕ) :
    getN (backpropagate arena i won) x =
      if x ∈ chain arena i then
        { getN arena x with wins := (getN arena x).wins + won,
                            visits := (getN arena x).visits + 1 }
      else getN arena x :=
  backpropF_getN (i + 1) arena i won hi x

theorem backprop_length (arena : List NodeData) (i : ℕ) (won : ℤ) :
    (backpropagate arena i won).length = arena.length :=
  backpropF_length (i + 1) arena i won

theorem backprop_struct (arena : List NodeData) (i : ℕ) (won : ℤ)
    (hi : i < arena.length) (x : ℕ) :
    (getN (backpropagate arena i won) x).parent = (getN arena x).parent ∧
    (getN (backpropagate arena i won) x).parent_action = (getN arena x).parent_action ∧
    (getN (backpropagate arena i won) x).untried_actions
      = (getN arena x).untried_actions ∧
    (getN (backpropagate arena i won) x).child_nodes = (getN arena x).child_nodes := by
  rw [backprop_getN arena i won hi x]
  by_cases hx : x ∈ chain arena i
  · rw [if_pos hx]; exact ⟨rfl, rfl, rfl, rfl⟩
  · rw [if_neg hx]; exact ⟨rfl, rfl, rfl, rfl⟩

theorem backprop_visits (arena : List NodeData) (i : ℕ) (won : ℤ)
    (hi : i < arena.length) (x : ℕ) :
    (getN (backpropagate arena i won) x).visits =
      (getN arena x).visits + (if x ∈ chain arena i then 1 else 0) := by
  rw [backprop_getN arena i won hi x]
  by_cases hx : x ∈ chain arena i
  · rw [if_pos hx, if_pos hx]
  · rw [if_neg hx, if_neg hx]
    rfl

theorem backprop_WF (arena : List NodeData) (i : ℕ) (won : ℤ)
    (hwf : WF arena) (hi : i < arena.length) : WF (backpropagate arena i won) := by
  obtain ⟨hlen, hroot, hpar, hchild, hnd⟩ := hwf
  refine ⟨?_, ?_, ?_, ?_, ?_⟩
  · rw [backprop_length]; exact hlen
  · rw [(backprop_struct arena i won hi 0).1]; exact hroot
  · intro j hj hj0
    rw [backprop_length] at hj
    obtain ⟨p, hp, hplt⟩ := hpar j hj hj0
    exact ⟨p, by rw [(backprop_struct arena i won hi j).1]; exact hp, hplt⟩
  · intro i' hi' q hq
    rw [backprop_length] at hi'
    rw [(backprop_struct arena i won hi i').2.2.2] at hq
    obtain ⟨h1, h2, h3⟩ := hchild i' hi' q hq
    exact ⟨h1, by rw [backprop_length]; exact h2,
      by rw [(backprop_struct arena i won hi q.2).1]; exact h3⟩
  · intro i' hi'
    rw [backprop_length] at hi'
    rw [(backprop_struct arena i won hi i').2.2.2]
    exact hnd i' hi'

theorem chain_zero_mem (arena : List NodeData) (hwf : WF arena) (i : ℕ)
    (hi : i < arena.length) : 0 ∈ chain arena i := by
  have h := chainF_getLast_zero arena hwf (i + 1) i (by omega) hi
  have h2 := List.dropLast_append_getLast? 0 (Option.mem_def.mpr h)
  show 0 ∈ chainF (i + 1) arena i
  rw [← h2]
  exact List.mem_append_right _ (List.mem_cons_self _ _)

theorem chain_self_mem (arena : List NodeData) (i : ℕ) : i ∈ chain arena i := by
  show i ∈ chainF (i + 1) arena i
  rcases hp : (getN arena i).parent with _ | p
  · rw [chainF_succ_none i arena i hp]; exact List.mem_cons_self _ _
  · by_cases hlt : p < i
    · rw [chainF_succ_lt i arena i p hp hlt]; exact List.mem_cons_self _ _
    · rw [chainF_succ_ge i arena i p hp hlt]; exact List.mem_cons_self _ _

theorem chain_parent_zero_unique (arena : List NodeData)
    (hroot : (getN arena 0).parent = none) :
    ∀ (fuel i x y : ℕ), x ∈ chainF fuel arena i → y ∈ chainF fuel arena i →
    (getN arena x).parent = some 0 → (getN arena y).parent = some 0 → x = y := by
  intro fuel
  induction fuel with
  | zero => intro i x y hx _ _ _; simp [chainF] at hx
  | succ f ih =>
    intro i x y hx hy hpx hpy
    rcases hp : (getN arena i).parent with _ | p
    · rw [chainF_succ_none f arena i hp] at hx hy
      simp at hx hy; subst hx; subst hy; rfl
    · by_cases hlt : p < i
      · rw [chainF_succ_lt f arena i p hp hlt] at hx hy
        have htail0 : p = 0 → ∀ z, z ∈ chainF f arena p →
            (getN arena z).parent ≠ some 0 := by
          intro hp0 z hz
          subst hp0
          cases f with
          | zero => simp [chainF] at hz
          | succ f2 =>
            rw [chainF_succ_none f2 arena 0 hroot] at hz
            simp at hz; subst hz
            rw [hroot]; simp
        rcases List.mem_cons.mp hx with hx1 | hx1 <;>
          rcases List.mem_cons.mp hy with hy1 | hy1
        · subst hx1; subst hy1; rfl
        · subst hx1
          rw [hp] at hpx
          injection hpx with hp0
          exact absurd hpy (htail0 hp0 y hy1)
        · subst hy1
          rw [hp] at hpy
          injection hpy with hp0
          exact absurd hpx (htail0 hp0 x hx1)
        · exact ih p x y hx1 hy1 hpx hpy
      · rw [chainF_succ_ge f arena i p hp hlt] at hx hy
        simp at hx hy; subst hx; subst hy; rfl

theorem sum_map_add (l : List (Action × ℕ)) (f g : ℕ → ℕ) :
    (l.map (fun q => f q.2 + g q.2)).sum =
      (l.map (fun q => f q.2)).sum + (l.map (fun q => g q.2)).sum := by
  induction l with
  | nil => rfl
  | cons x xs ih =>
    simp only [List.map_cons, List.sum_cons, ih]
    omega

theorem sum_map_ind_le_one (l : List (Action × ℕ)) (P : ℕ → Prop) [DecidablePred P]
    (hnd : (l.map Prod.snd).Nodup)
    (huniq : ∀ x y, x ∈ l.map Prod.snd → y ∈ l.map Prod.snd → P x → P y → x = y) :
    (l.map (fun q => if P q.2 then 1 else 0)).sum ≤ 1 := by
  induction l with
  | nil => simp
  | cons x xs ih =>
    simp only [List.map_cons, List.sum_cons]
    simp only [List.map_cons] at hnd huniq
    have hnd' := List.nodup_cons.mp hnd
    by_cases hx : P x.2
    · rw [if_pos hx]
      have hz : (xs.map (fun q => if P q.2 then 1 else 0)).sum = 0 := by
        apply List.sum_eq_zero
        intro v hv
        rw [List.mem_map] at hv
        obtain ⟨q, hq, hvq⟩ := hv
        by_cases hqP : P q.2
        · exfalso
          have heq : x.2 = q.2 :=
            huniq x.2 q.2 (List.mem_cons_self _ _)
              (List.mem_cons_of_mem _ (List.mem_map_of_mem Prod.snd hq)) hx hqP
          exact hnd'.1 (heq ▸ List.mem_map_of_mem Prod.snd hq)
        · rw [← hvq, if_neg hqP]
      omega
    · rw [if_neg hx]
      have := ih hnd'.2 (fun x' y' hx' hy' =>
        huniq x' y' (List.mem_cons_of_mem _ hx') (List.mem_cons_of_mem _ hy'))
      omega

theorem root_visits_backprop (arena : List NodeData) (j2 : ℕ) (won : ℤ)
    (hwf : WF arena) (hj : j2 < arena.length) :
    (getN (backpropagate arena j2 won) 0).visits = (getN arena 0).visits + 1 := by
  rw [backprop_visits arena j2 won hj 0, if_pos (chain_zero_mem arena hwf j2 hj)]

theorem rootChildSum_backprop (arena : List NodeData) (j2 : ℕ) (won : ℤ)
    (hwf : WF arena) (hj : j2 < arena.length) :
    rootChildSum (backpropagate arena j2 won) ≤ rootChildSum arena + 1 := by
  unfold rootChildSum
  rw [(backprop_struct arena j2 won hj 0).2.2.2]
  have hmapeq : ((getN arena 0).child_nodes.map
      (fun q => (getN (backpropagate arena j2 won) q.2).visits)) =
      ((getN arena 0).child_nodes.map
      (fun q => (getN arena q.2).visits + (if q.2 ∈ chain arena j2 then 1 else 0))) := by
    apply List.map_congr_left
    intro q _
    exact backprop_visits arena j2 won hj q.2
  rw [hmapeq, sum_map_add (getN arena 0).child_nodes
    (fun x => (getN arena x).visits) (fun x => if x ∈ chain arena j2 then 1 else 0)]
  have hind : ((getN arena 0).child_nodes.map
      (fun q => if q.2 ∈ chain arena j2 then 1 else 0)).sum ≤ 1 := by
    apply sum_map_ind_le_one _ _ (hwf.2.2.2.2 0 hwf.1)
    intro x y hx hy hxc hyc
    obtain ⟨qx, hqx, hqx2⟩ := List.mem_map.mp hx
    obtain ⟨qy, hqy, hqy2⟩ := List.mem_map.mp hy
    have hpx : (getN arena x).parent = some 0 := by
      have := (hwf.2.2.2.1 0 hwf.1 qx hqx).2.2
      rw [hqx2] at this; exact this
    have hpy : (getN arena y).parent = some 0 := by
      have := (hwf.2.2.2.1 0 hwf.1 qy hqy).2.2
      rw [hqy2] at this; exact this
    exact chain_parent_zero_unique arena hwf.2.1 (j2 + 1) j2 x y hxc hyc hpx hpy
  omega

theorem chainF_self_mem (fuel : ℕ) (arena : List NodeData) (i : ℕ)
    (hf : 0 < fuel) : i ∈ chainF fuel arena i := by
  cases fuel with
  | zero => omega
  | succ f =>
    rcases hp : (getN arena i).parent with _ | p
    · rw [chainF_succ_none f arena i hp]; exact List.mem_cons_self _ _
    · by_cases hlt : p < i
      · rw [chainF_succ_lt f arena i p hp hlt]; exact List.mem_cons_self _ _
      · rw [chainF_succ_ge f arena i p hp hlt]; exact List.mem_cons_self _ _

theorem backprop_Inv (arena : List NodeData) (j2 : ℕ) (won : ℤ)
    (hwf : WF arena) (hj : j2 < arena.length)
    (hcp' : ∀ i, i < arena.length → ∀ q ∈ (getN arena i).child_nodes,
      1 ≤ (getN arena q.2).visits ∨ q.2 ∈ chain arena j2)
    (hov' : ∀ i, i < arena.length → (getN arena i).child_nodes ≠ [] →
      1 ≤ (getN arena i).visits ∨ i ∈ chain arena j2)
    (hfk : freshKeys arena) :
    Inv (backpropagate arena j2 won) := by
  refine ⟨backprop_WF arena j2 won hwf hj, ?_, ?_, ?_⟩
  · intro i hi q hq
    rw [backprop_length] at hi
    rw [(backprop_struct arena j2 won hj i).2.2.2] at hq
    rw [backprop_visits arena j2 won hj q.2]
    rcases hcp' i hi q hq with h | h
    · split <;> omega
    · rw [if_pos h]; omega
  · intro i hi hne
    rw [backprop_length] at hi
    rw [(backprop_struct arena j2 won hj i).2.2.2] at hne
    rw [backprop_visits arena j2 won hj i]
    rcases hov' i hi hne with h | h
    · split <;> omega
    · rw [if_pos h]; omega
  · intro i hi
    rw [backprop_length] at hi
    rw [(backprop_struct arena j2 won hj i).2.2.1,
      (backprop_struct arena j2 won hj i).2.2.2]
    exact hfk i hi

theorem expand_facts {S : Type} (b : Board S) (arena : List NodeData) (i : ℕ)
    (s : S) (a : Action) (hwf : WF arena) (hi : i < arena.length)
    (hlast : (getN arena i).untried_actions.getLast? = some a)
    (hfresh : a ∉ (getN arena i).child_nodes.map Prod.fst) :
    ∀ A2 j2 s2, expand_leaf b arena i s = (A2, j2, s2) →
    A2.length = arena.length + 1 ∧
    j2 = arena.length ∧
    s2 = b.next_state s a ∧
    (∀ x, x ≠ i → x < arena.length → getN A2 x = getN arena x) ∧
    getN A2 i =
      { getN arena i with
        untried_actions := (getN arena i).untried_actions.dropLast,
        child_nodes := (getN arena i).child_nodes ++ [(a, arena.length)] } ∧
    getN A2 arena.length =
      { parent := some i, parent_action := some a,
        untried_actions := b.legal_actions (b.next_state s a),
        wins := 0, visits := 0, child_nodes := [] } ∧
    WF A2 := by
  intro A2 j2 s2 heq
  rw [expand_leaf_some b arena i s a hlast] at heq
  injection heq with h1 hrest
  injection hrest with h2 h3
  subst h1; subst h2; subst h3
  have hul : (upd arena i (fun nd =>
      { nd with untried_actions := nd.untried_actions.dropLast,
                child_nodes := dictInsert nd.child_nodes a arena.length })).length =
      arena.length := length_upd arena i _
  have hother : ∀ x, x ≠ i → x < arena.length →
      getN (upd arena i (fun nd =>
        { nd with untried_actions := nd.untried_actions.dropLast,
                  child_nodes := dictInsert nd.child_nodes a arena.length }) ++
        [{ parent := some i, parent_action := some a,
           untried_actions := b.legal_actions (b.next_state s a),
           wins := 0, visits := 0, child_nodes := [] }]) x = getN arena x := by
    intro x hxi hxl
    rw [getN_append_lt _ _ x (by omega), getN_upd_ne arena i _ x hxi]
  have hati : getN (upd arena i (fun nd =>
      { nd with untried_actions := nd.untried_actions.dropLast,
                child_nodes := dictInsert nd.child_nodes a arena.length }) ++
      [{ parent := some i, parent_action := some a,
         untried_actions := b.legal_actions (b.next_state s a),
         wins := 0, visits := 0, child_nodes := [] }]) i =
      { getN arena i with
        untried_actions := (getN arena i).untried_actions.dropLast,
        child_nodes := (getN arena i).child_nodes ++ [(a, arena.length)] } := by
    rw [getN_append_lt _ _ i (by omega), getN_upd_self arena i _ hi]
    show ({ getN arena i with
        untried_actions := (getN arena i).untried_actions.dropLast,
        child_nodes := dictInsert (getN arena i).child_nodes a arena.length }
        : NodeData) = _
    rw [dictInsert_fresh _ _ _ hfresh]
  have hnew : getN (upd arena i (fun nd =>
      { nd with untried_actions := nd.untried_actions.dropLast,
                child_nodes := dictInsert nd.child_nodes a arena.length }) ++
      [{ parent := some i, parent_action := some a,
         untried_actions := b.legal_actions (b.next_state s a),
         wins := 0, visits := 0, child_nodes := [] }]) arena.length =
      { parent := some i, parent_action := some a,
        untried_actions := b.legal_actions (b.next_state s a),
        wins := 0, visits := 0, child_nodes := [] } := by
    have := getN_append_self (upd arena i (fun nd =>
      { nd with untried_actions := nd.untried_actions.dropLast,
                child_nodes := dictInsert nd.child_nodes a arena.length }))
      { parent := some i, parent_action := some a,
        untried_actions := b.legal_actions (b.next_state s a),
        wins := 0, visits := 0, child_nodes := [] }
    rw [hul] at this
    exact this
  have hparpres : ∀ x, x < arena.length →
      (getN (upd arena i (fun nd =>
        { nd with untried_actions := nd.untried_actions.dropLast,
                  child_nodes := dictInsert nd.child_nodes a arena.length }) ++
        [{ parent := some i, parent_action := some a,
           untried_actions := b.legal_actions (b.next_state s a),
           wins := 0, visits := 0, child_nodes := [] }]) x).parent =
      (getN arena x).parent := by
    intro x hxl
    by_cases hxi : x = i
    · subst hxi; rw [hati]
    · rw [hother x hxi hxl]
  refine ⟨by simp [hul], rfl, rfl, hother, hati, hnew, ?_⟩
  obtain ⟨hlen, hroot, hpar, hchild, hndp⟩ := hwf
  have hlen2 : (upd arena i (fun nd =>
      { nd with untried_actions := nd.untried_actions.dropLast,
                child_nodes := dictInsert nd.child_nodes a arena.length }) ++
      [({ parent := some i, parent_action := some a,
          untried_actions := b.legal_actions (b.next_state s a),
          wins := 0, visits := 0, child_nodes := [] } : NodeData)]).length =
      arena.length + 1 := by
    simp [hul]
  refine ⟨by omega, ?_, ?_, ?_, ?_⟩
  · rw [hparpres 0 hlen]; exact hroot
  · intro j hj hj0
    rw [hlen2] at hj
    by_cases hjl : j < arena.length
    · obtain ⟨p, hp, hplt⟩ := hpar j hjl hj0
      exact ⟨p, by rw [hparpres j hjl]; exact hp, hplt⟩
    · have hjeq : j = arena.length := by omega
      subst hjeq
      exact ⟨i, by rw [hnew], hi⟩
  · intro i' hi' q hq
    rw [hlen2] at hi'
    by_cases hi'n : i' = arena.length
    · subst hi'n
      rw [hnew] at hq
      exact absurd hq (List.not_mem_nil q)
    · have hi'l : i' < arena.length := by omega
      by_cases hi'i : i' = i
      · subst hi'i
        rw [hati] at hq
        rcases List.mem_append.mp hq with hq | hq
        · obtain ⟨h1, h2, h3⟩ := hchild i' hi'l q hq
          refine ⟨h1, by omega, ?_⟩
          rw [hparpres q.2 h2]
          exact h3
        · have hqe : q = (a, arena.length) := by simpa using hq
          subst hqe
          exact ⟨hi, by omega, by rw [hnew]⟩
      · rw [hother i' hi'i hi'l] at hq
        obtain ⟨h1, h2, h3⟩ := hchild i' hi'l q hq
        refine ⟨h1, by omega, ?_⟩
        rw [hparpres q.2 h2]
        exact h3
  · intro i' hi'
    rw [hlen2] at hi'
    by_cases hi'n : i' = arena.length
    · subst hi'n
      rw [hnew]
      simp
    · have hi'l : i' < arena.length := by omega
      by_cases hi'i : i' = i
      · subst hi'i
        rw [hati]
        show ((getN arena i').child_nodes ++ [(a, arena.length)]).map Prod.snd |>.Nodup
        rw [List.map_append]
        rw [List.nodup_append]
        refine ⟨hndp i' hi'l, by simp, ?_⟩
        intro x hx
        simp only [List.map_cons, List.map_nil, List.mem_cons, List.not_mem_nil,
          or_false]
        obtain ⟨q, hq, hq2⟩ := List.mem_map.mp hx
        have := (hchild i' hi'l q hq).2.1
        omega
      · rw [hother i' hi'i hi'l]
        exact hndp i' hi'l

theorem iterate_preserve {S U : Type} [LinearOrder U] (b : Board S)
    (ucbFn : ℤ → ℕ → ℕ → Bool → U) (initU : U) (bot : ℕ) (s0 : S)
    (hnd : ∀ st : S, (b.legal_actions st).Nodup)
    (arena : List NodeData) (hinv : Inv arena)
    (leaf : ℕ) (s1 : S) (tlog : List (ℕ × ℕ)) (te : Bool)
    (htrav : traverse_nodes b ucbFn initU bot arena (arena.length + 1) 0 s0 =
      some (leaf, s1, tlog, te))
    (A2 : List NodeData) (j2 : ℕ) (s2 : S)
    (hexp : expand_leaf b arena leaf s1 = (A2, j2, s2)) (won : ℤ) :
    Inv (backpropagate A2 j2 won) ∧
    (getN (backpropagate A2 j2 won) 0).visits = (getN arena 0).visits + 1 ∧
    rootChildSum (backpropagate A2 j2 won) ≤ rootChildSum arena + 1 ∧
    te = false ∧ (∀ cv pv, (cv, pv) ∈ tlog → 0 < cv ∧ 0 < pv) := by
  obtain ⟨hwf, hcp, hov, hfk⟩ := hinv
  have hlen0 : 0 < arena.length := hwf.1
  obtain ⟨hleaf, hte, htlogpos⟩ := traverse_ok b ucbFn initU bot arena hwf hcp hov
    (arena.length + 1) 0 s0 leaf s1 tlog te hlen0 htrav
  rcases hlast : (getN arena leaf).untried_actions.getLast? with _ | a
  · rw [expand_leaf_none b arena leaf s1 hlast] at hexp
    injection hexp with h1 hrest
    injection hrest with h2 h3
    subst h1; subst h2; subst h3
    exact ⟨backprop_Inv arena leaf won hwf hleaf
        (fun i hi q hq => Or.inl (hcp i hi q hq))
        (fun i hi hne => Or.inl (hov i hi hne)) hfk,
      root_visits_backprop arena leaf won hwf hleaf,
      rootChildSum_backprop arena leaf won hwf hleaf, hte, htlogpos⟩
  · have hfka := hfk leaf hleaf
    have hsplit := List.dropLast_append_getLast? a (Option.mem_def.mpr hlast)
    have hmem_a : a ∈ (getN arena leaf).untried_actions := by
      rw [← hsplit]; exact List.mem_append_right _ (List.mem_cons_self _ _)
    have hfresh : a ∉ (getN arena leaf).child_nodes.map Prod.fst :=
      hfka.2 a hmem_a
    obtain ⟨hlen2, hj2, hs2, hother, hati, hnew, hwf2⟩ :=
      expand_facts b arena leaf s1 a hwf hleaf hlast hfresh A2 j2 s2 hexp
    subst hj2
    have hj2len : arena.length < A2.length := by omega
    have hvis2 : ∀ x, x < arena.length →
        (getN A2 x).visits = (getN arena x).visits := by
      intro x hx
      by_cases hxl : x = leaf
      · subst hxl; rw [hati]
      · rw [hother x hxl hx]
    have hch2 : ∀ x, x < arena.length → x ≠ leaf →
        (getN A2 x).child_nodes = (getN arena x).child_nodes := by
      intro x hx hxl; rw [hother x hxl hx]
    have hchleaf : (getN A2 leaf).child_nodes =
        (getN arena leaf).child_nodes ++ [(a, arena.length)] := by rw [hati]
    have hparA2len : (getN A2 arena.length).parent = some leaf := by rw [hnew]
    have hchainmem : leaf ∈ chain A2 arena.length := by
      show leaf ∈ chainF (arena.length + 1) A2 arena.length
      rw [chainF_succ_lt arena.length A2 arena.length leaf hparA2len hleaf]
      exact List.mem_cons_of_mem _ (chainF_self_mem arena.length A2 leaf (by omega))
    have hnewmem : arena.length ∈ chain A2 arena.length := chain_self_mem A2 arena.length
    have hcp2 : ∀ i', i' < A2.length → ∀ q ∈ (getN A2 i').child_nodes,
        1 ≤ (getN A2 q.2).visits ∨ q.2 ∈ chain A2 arena.length := by
      intro i' hi' q hq
      by_cases hi'n : i' = arena.length
      · subst hi'n; rw [hnew] at hq; exact absurd hq (List.not_mem_nil q)
      · have hi'l : i' < arena.length := by omega
        by_cases hi'leaf : i' = leaf
        · subst hi'leaf
          rw [hchleaf] at hq
          rcases List.mem_append.mp hq with hq | hq
          · left
            obtain ⟨_, hql, _⟩ := hwf.2.2.2.1 i' hi'l q hq
            rw [hvis2 q.2 hql]
            exact hcp i' hi'l q hq
          · right
            have hqe : q = (a, arena.length) := by simpa using hq
            subst hqe
            exact hnewmem
        · rw [hch2 i' hi'l hi'leaf] at hq
          left
          obtain ⟨_, hql, _⟩ := hwf.2.2.2.1 i' hi'l q hq
          rw [hvis2 q.2 hql]
          exact hcp i' hi'l q hq
    have hov2 : ∀ i', i' < A2.length → (getN A2 i').child_nodes ≠ [] →
        1 ≤ (getN A2 i').visits ∨ i' ∈ chain A2 arena.length := by
      intro i' hi' hne
      by_cases hi'n : i' = arena.length
      · subst hi'n
        exact absurd (by rw [hnew]) hne
      · have hi'l : i' < arena.length := by omega
        by_cases hi'leaf : i' = leaf
        · subst hi'leaf; right; exact hchainmem
        · rw [hch2 i' hi'l hi'leaf] at hne
          left
          rw [hvis2 i' hi'l]
          exact hov i' hi'l hne
    have hfk2 : freshKeys A2 := by
      intro i' hi'
      by_cases hi'n : i' = arena.length
      · subst hi'n
        rw [hnew]
        exact ⟨hnd _, fun a' _ => by simp⟩
      · have hi'l : i' < arena.length := by omega
        by_cases hi'leaf : i' = leaf
        · subst hi'leaf
          rw [hati]
          show ((getN arena i').untried_actions.dropLast).Nodup ∧
            ∀ a' ∈ (getN arena i').untried_actions.dropLast,
              a' ∉ ((getN arena i').child_nodes ++ [(a, arena.length)]).map Prod.fst
          have hnodup := (hfk i' hi'l).1
          constructor
          · exact hnodup.sublist (List.dropLast_sublist _)
          · intro a' ha'
            have ha'mem : a' ∈ (getN arena i').untried_actions := by
              rw [← hsplit]; exact List.mem_append_left _ ha'
            have h1 : a' ∉ (getN arena i').child_nodes.map Prod.fst :=
              (hfk i' hi'l).2 a' ha'mem
            have h2 : a' ≠ a := by
              intro hcontr
              subst hcontr
              rw [← hsplit] at hnodup
              exact (List.nodup_append.mp hnodup).2.2 ha' (List.mem_cons_self _ _)
            rw [List.map_append]
            intro hcontr
            rcases List.mem_append.mp hcontr with hc | hc
            · exact h1 hc
            · simp at hc
              exact h2 hc
        · rw [hother i' hi'leaf hi'l]
          exact hfk i' hi'l
    refine ⟨backprop_Inv A2 arena.length won hwf2 hj2len hcp2 hov2 hfk2, ?_, ?_,
      hte, htlogpos⟩
    · rw [root_visits_backprop A2 arena.length won hwf2 hj2len, hvis2 0 hlen0]
    · have hB := rootChildSum_backprop A2 arena.length won hwf2 hj2len
      have hsum2 : rootChildSum A2 = rootChildSum arena := by
        unfold rootChildSum
        by_cases hleaf0 : leaf = 0
        · subst hleaf0
          rw [hchleaf, List.map_append, List.sum_append]
          have hcongr : (getN arena 0).child_nodes.map
              (fun q => (getN A2 q.2).visits) =
              (getN arena 0).child_nodes.map (fun q => (getN arena q.2).visits) := by
            apply List.map_congr_left
            intro q hq
            exact hvis2 q.2 (hwf.2.2.2.1 0 hlen0 q hq).2.1
          rw [hcongr]
          have hz : (([(a, arena.length)] : List (Action × ℕ)).map
              (fun q => (getN A2 q.2).visits)).sum = 0 := by
            simp [hnew]
          rw [hz]
          omega
        · rw [hch2 0 hlen0 (fun h => hleaf0 h.symm)]
          apply congrArg
          apply List.map_congr_left
          intro q hq
          exact hvis2 q.2 (hwf.2.2.2.1 0 hlen0 q hq).2.1
      omega

theorem thinkLoop_travnone {S U : Type} [LinearOrder U] (b : Board S)
    (ucbFn : ℤ → ℕ → ℕ → Bool → U) (initU : U) (bot : ℕ) (s0 : S) (rng : ℕ → ℕ)
    (fuel n : ℕ) (arena : List NodeData) (k : ℕ) (log : List (ℕ × ℕ)) (e : Bool)
    (htrav : traverse_nodes b ucbFn initU bot arena (arena.length + 1) 0 s0 = none) :
    thinkLoop b ucbFn initU bot s0 rng fuel (n + 1) arena k log e = none := by
  unfold thinkLoop
  simp only [htrav]

theorem thinkLoop_rollnone {S U : Type} [LinearOrder U] (b : Board S)
    (ucbFn : ℤ → ℕ → ℕ → Bool → U) (initU : U) (bot : ℕ) (s0 : S) (rng : ℕ → ℕ)
    (fuel n : ℕ) (arena : List NodeData) (k : ℕ) (log : List (ℕ × ℕ)) (e : Bool)
    (leaf : ℕ) (s1 : S) (tlog : List (ℕ × ℕ)) (te : Bool)
    (A2 : List NodeData) (j2 : ℕ) (s2 : S)
    (htrav : traverse_nodes b ucbFn initU bot arena (arena.length + 1) 0 s0 =
      some (leaf, s1, tlog, te))
    (hexp : expand_leaf b arena leaf s1 = (A2, j2, s2))
    (hroll : rollout b rng k fuel s2 = none) :
    thinkLoop b ucbFn initU bot s0 rng fuel (n + 1) arena k log e = none := by
  unfold thinkLoop
  simp only [htrav, hexp, hroll]

theorem thinkLoop_pointsnone {S U : Type} [LinearOrder U] (b : Board S)
    (ucbFn : ℤ → ℕ → ℕ → Bool → U) (initU : U) (bot : ℕ) (s0 : S) (rng : ℕ → ℕ)
    (fuel n : ℕ) (arena : List NodeData) (k : ℕ) (log : List (ℕ × ℕ)) (e : Bool)
    (leaf : ℕ) (s1 : S) (tlog : List (ℕ × ℕ)) (te : Bool)
    (A2 : List NodeData) (j2 : ℕ) (s2 : S) (s3 : S) (k2 : ℕ)
    (htrav : traverse_nodes b ucbFn initU bot arena (arena.length + 1) 0 s0 =
      some (leaf, s1, tlog, te))
    (hexp : expand_leaf b arena leaf s1 = (A2, j2, s2))
    (hroll : rollout b rng k fuel s2 = some (s3, k2))
    (hpv : b.points_values s3 = none) :
    thinkLoop b ucbFn initU bot s0 rng fuel (n + 1) arena k log e = none := by
  unfold thinkLoop
  simp only [htrav, hexp, hroll, hpv]

theorem thinkLoop_step {S U : Type} [LinearOrder U] (b : Board S)
    (ucbFn : ℤ → ℕ → ℕ → Bool → U) (initU : U) (bot : ℕ) (s0 : S) (rng : ℕ → ℕ)
    (fuel n : ℕ) (arena : List NodeData) (k : ℕ) (log : List (ℕ × ℕ)) (e : Bool)
    (leaf : ℕ) (s1 : S) (tlog : List (ℕ × ℕ)) (te : Bool)
    (A2 : List NodeData) (j2 : ℕ) (s2 : S) (s3 : S) (k2 : ℕ) (f : ℕ → ℤ)
    (htrav : traverse_nodes b ucbFn initU bot arena (arena.length + 1) 0 s0 =
      some (leaf, s1, tlog, te))
    (hexp : expand_leaf b arena leaf s1 = (A2, j2, s2))
    (hroll : rollout b rng k fuel s2 = some (s3, k2))
    (hpv : b.points_values s3 = some f) :
    thinkLoop b ucbFn initU bot s0 rng fuel (n + 1) arena k log e =
      thinkLoop b ucbFn initU bot s0 rng fuel n
        (backpropagate A2 j2 (f bot)) k2 (log ++ tlog) (e || te) := by
  conv_lhs => unfold thinkLoop
  simp only [htrav, hexp, hroll, hpv]

theorem thinkLoop_ok {S U : Type} [LinearOrder U] (b : Board S)
    (ucbFn : ℤ → ℕ → ℕ → Bool → U) (initU : U) (bot : ℕ) (s0 : S)
    (rng : ℕ → ℕ) (fuel : ℕ) (hnd : ∀ st : S, (b.legal_actions st).Nodup) :
    ∀ (n : ℕ) (arena : List NodeData) (k : ℕ) (log : List (ℕ × ℕ)) (e : Bool)
      (arenaF : List NodeData) (kF : ℕ) (logF : List (ℕ × ℕ)) (eF : Bool),
    Inv arena →
    thinkLoop b ucbFn initU bot s0 rng fuel n arena k log e =
      some (arenaF, kF, logF, eF) →
    Inv arenaF ∧
    (getN arenaF 0).visits = (getN arena 0).visits + n ∧
    rootChildSum arenaF ≤ rootChildSum arena + n ∧
    eF = e ∧
    ∃ tail, logF = log ++ tail ∧ ∀ cv pv, (cv, pv) ∈ tail → 0 < cv ∧ 0 < pv := by
  intro n
  induction n with
  | zero =>
    intro arena k log e arenaF kF logF eF hinv h
    have h2 : (arena, k, log, e) = (arenaF, kF, logF, eF) := Option.some.inj h
    injection h2 with ha hrest
    injection hrest with hk hrest2
    injection hrest2 with hl he
    subst ha; subst hl; subst he
    exact ⟨hinv, by omega, by omega, rfl, [], by simp, by simp⟩
  | succ n ih =>
    intro arena k log e arenaF kF logF eF hinv h
    rcases htrav : traverse_nodes b ucbFn initU bot arena (arena.length + 1) 0 s0
      with _ | ⟨leaf, s1, tlog, te⟩
    · rw [thinkLoop_travnone b ucbFn initU bot s0 rng fuel n arena k log e htrav] at h
      exact absurd h (by simp)
    · rcases hexp : expand_leaf b arena leaf s1 with ⟨A2, j2, s2⟩
      rcases hroll : rollout b rng k fuel s2 with _ | ⟨s3, k2⟩
      · rw [thinkLoop_rollnone b ucbFn initU bot s0 rng fuel n arena k log e
          leaf s1 tlog te A2 j2 s2 htrav hexp hroll] at h
        exact absurd h (by simp)
      · rcases hpv : b.points_values s3 with _ | f
        · rw [thinkLoop_pointsnone b ucbFn initU bot s0 rng fuel n arena k log e
            leaf s1 tlog te A2 j2 s2 s3 k2 htrav hexp hroll hpv] at h
          exact absurd h (by simp)
        · rw [thinkLoop_step b ucbFn initU bot s0 rng fuel n arena k log e
            leaf s1 tlog te A2 j2 s2 s3 k2 f htrav hexp hroll hpv] at h
          obtain ⟨hinv3, hvis3, hsum3, hte, htlogpos⟩ :=
            iterate_preserve b ucbFn initU bot s0 hnd arena hinv leaf s1 tlog te
              htrav A2 j2 s2 hexp (f bot)
          obtain ⟨hinvF, hvisF, hsumF, heF, tail, hlogF, htailpos⟩ :=
            ih (backpropagate A2 j2 (f bot)) k2 (log ++ tlog) (e || te)
              arenaF kF logF eF hinv3 h
          refine ⟨hinvF, by omega, by omega, ?_, tlog ++ tail, ?_, ?_⟩
          · rw [heF, hte, Bool.or_false]
          · rw [hlogF, List.append_assoc]
          · intro cv pv hmem
            rcases List.mem_append.mp hmem with hh | hh
            · exact htlogpos cv pv hh
            · exact htailpos cv pv hh

theorem rootNode_Inv {S : Type} (b : Board S) (s : S)
    (hnd : (b.legal_actions s).Nodup) : Inv [rootNode b s] := by
  refine ⟨⟨by simp, rfl, ?_, ?_, ?_⟩, ?_, ?_, ?_⟩
  · intro j hj hj0
    simp at hj
    omega
  · intro i hi q hq
    simp at hi
    subst hi
    exact absurd hq (List.not_mem_nil q)
  · intro i hi
    simp at hi
    subst hi
    simp [getN, rootNode]
  · intro i hi q hq
    simp at hi
    subst hi
    exact absurd hq (List.not_mem_nil q)
  · intro i hi hne
    simp at hi
    subst hi
    exact absurd rfl hne
  · intro i hi
    simp at hi
    subst hi
    exact ⟨hnd, fun a _ => by simp [getN, rootNode]⟩

theorem think_none {S U : Type} [LinearOrder U] (b : Board S)
    (ucbFn : ℤ → ℕ → ℕ → Bool → U) (initU : U) (rng : ℕ → ℕ) (fuel : ℕ) (s0 : S)
    (hloop : thinkLoop b ucbFn initU (b.current_player s0) s0 rng fuel num_nodes
      [rootNode b s0] 0 [] false = none) :
    think b ucbFn initU rng fuel s0 = none := by
  unfold think; rw [hloop]

theorem think_some {S U : Type} [LinearOrder U] (b : Board S)
    (ucbFn : ℤ → ℕ → ℕ → Bool → U) (initU : U) (rng : ℕ → ℕ) (fuel : ℕ) (s0 : S)
    (A : List NodeData) (k : ℕ) (L : List (ℕ × ℕ)) (E : Bool)
    (hloop : thinkLoop b ucbFn initU (b.current_player s0) s0 rng fuel num_nodes
      [rootNode b s0] 0 [] false = some (A, k, L, E)) :
    think b ucbFn initU rng fuel s0 = some (A, L, E, get_best_action A 0) := by
  unfold think; rw [hloop]

/-- C6.  After think completes its simulation loop on a non-terminal input
state (the hypothesis think = some result assumes every iteration, and in
particular every rollout, terminated without error), the root node's visits
equals the iteration count num_nodes = 100 and the sum of the root's
children's visits is at most 100.  The theorem is generic over the scoring
function, so it covers the program's real-valued ucb scoring in
particular. -/
theorem think_root_visits {S U : Type} [LinearOrder U] (b : Board S)
    (ucbFn : ℤ → ℕ → ℕ → Bool → U) (initU : U) (rng : ℕ → ℕ) (fuel : ℕ) (s0 : S)
    (hnd : ∀ st : S, (b.legal_actions st).Nodup)
    (hne : b.is_ended s0 = false)
    (arenaF : List NodeData) (logF : List (ℕ × ℕ)) (eF : Bool) (act : Option Action)
    (h : think b ucbFn initU rng fuel s0 = some (arenaF, logF, eF, act)) :
    (getN arenaF 0).visits = num_nodes ∧ num_nodes = 100 ∧
    rootChildSum arenaF ≤ num_nodes := by
  rcases hloop : thinkLoop b ucbFn initU (b.current_player s0) s0 rng fuel num_nodes
      [rootNode b s0] 0 [] false with _ | ⟨A, k, L, E⟩
  · rw [think_none b ucbFn initU rng fuel s0 hloop] at h
    exact absurd h (by simp)
  · rw [think_some b ucbFn initU rng fuel s0 A k L E hloop] at h
    obtain ⟨hinvF, hvisF, hsumF, hEe, tail, hlog, htail⟩ :=
      thinkLoop_ok b ucbFn initU (b.current_player s0) s0 rng fuel hnd num_nodes
        [rootNode b s0] 0 [] false A k L E (rootNode_Inv b s0 (hnd s0)) hloop
    have h2 := Option.some.inj h
    injection h2 with hA hrest
    injection hrest with hL hrest2
    injection hrest2 with hE hact
    subst hA; subst hL; subst hE
    have hroot0 : (getN [rootNode b s0] 0).visits = 0 := rfl
    have hsum0 : rootChildSum [rootNode b s0] = 0 := rfl
    exact ⟨by omega, rfl, by omega⟩

/-- C7.  During every completed execution of think, every evaluation of the
scoring function in the Selector — logged as the pair (child's visits,
visits read through the child's parent reference, i.e. node.visits and
node.parent.visits as ucb reads them) — has both counts nonzero, so no
division by zero and no log of zero occurs in the UCB computation.  Generic
over the scoring function, hence covering the real ucb. -/
theorem think_ucb_reads_positive {S U : Type} [LinearOrder U] (b : Board S)
    (ucbFn : ℤ → ℕ → ℕ → Bool → U) (initU : U) (rng : ℕ → ℕ) (fuel : ℕ) (s0 : S)
    (hnd : ∀ st : S, (b.legal_actions st).Nodup)
    (arenaF : List NodeData) (logF : List (ℕ × ℕ)) (eF : Bool) (act : Option Action)
    (h : think b ucbFn initU rng fuel s0 = some (arenaF, logF, eF, act)) :
    ∀ cv pv, (cv, pv) ∈ logF → 0 < cv ∧ 0 < pv := by
  rcases hloop : thinkLoop b ucbFn initU (b.current_player s0) s0 rng fuel num_nodes
      [rootNode b s0] 0 [] false with _ | ⟨A, k, L, E⟩
  · rw [think_none b ucbFn initU rng fuel s0 hloop] at h
    exact absurd h (by simp)
  · rw [think_some b ucbFn initU rng fuel s0 A k L E hloop] at h
    obtain ⟨hinvF, hvisF, hsumF, hEe, tail, hlog, htail⟩ :=
      thinkLoop_ok b ucbFn initU (b.current_player s0) s0 rng fuel hnd num_nodes
        [rootNode b s0] 0 [] false A k L E (rootNode_Inv b s0 (hnd s0)) hloop
    have h2 := Option.some.inj h
    injection h2 with hA hrest
    injection hrest with hL hrest2
    injection hrest2 with hE hact
    subst hA; subst hL; subst hE
    intro cv pv hmem
    have hLt : L = tail := by simpa using hlog
    rw [hLt] at hmem
    exact htail cv pv hmem

/-- C10.  Implicit invariant: in every run of think's loop from the fresh
root, after any number m of completed iterations — that is, at the start of
iteration m + 1 and after the last one — every node stored in any node's
children mapping has visits ≥ 1, because the child created by expand_leaf is
the very node backpropagate starts at in the same iteration; consequently
the zero-visit early-return branch of traverse_nodes is never taken: the
early-return flag of every completed run is false. -/
theorem think_zero_visit_unreachable {S U : Type} [LinearOrder U] (b : Board S)
    (ucbFn : ℤ → ℕ → ℕ → Bool → U) (initU : U) (rng : ℕ → ℕ) (fuel : ℕ) (s0 : S)
    (hnd : ∀ st : S, (b.legal_actions st).Nodup) :
    (∀ (m : ℕ) (Am : List NodeData) (km : ℕ) (Lm : List (ℕ × ℕ)) (Em : Bool),
      thinkLoop b ucbFn initU (b.current_player s0) s0 rng fuel m
        [rootNode b s0] 0 [] false = some (Am, km, Lm, Em) →
      childVisitsPos Am ∧ Em = false) ∧
    (∀ (arenaF : List NodeData) (logF : List (ℕ × ℕ)) (eF : Bool)
      (act : Option Action),
      think b ucbFn initU rng fuel s0 = some (arenaF, logF, eF, act) →
      eF = false ∧ childVisitsPos arenaF) := by
  have hloopgen : ∀ (m : ℕ) (Am : List NodeData) (km : ℕ) (Lm : List (ℕ × ℕ))
      (Em : Bool),
      thinkLoop b ucbFn initU (b.current_player s0) s0 rng fuel m
        [rootNode b s0] 0 [] false = some (Am, km, Lm, Em) →
      childVisitsPos Am ∧ Em = false := by
    intro m Am km Lm Em hl
    obtain ⟨hinv, _, _, hE, _⟩ :=
      thinkLoop_ok b ucbFn initU (b.current_player s0) s0 rng fuel hnd m
        [rootNode b s0] 0 [] false Am km Lm Em (rootNode_Inv b s0 (hnd s0)) hl
    exact ⟨hinv.2.1, hE⟩
  refine ⟨hloopgen, ?_⟩
  intro arenaF logF eF act h
  rcases hloop : thinkLoop b ucbFn initU (b.current_player s0) s0 rng fuel num_nodes
      [rootNode b s0] 0 [] false with _ | ⟨A, k, L, E⟩
  · rw [think_none b ucbFn initU rng fuel s0 hloop] at h
    exact absurd h (by simp)
  · rw [think_some b ucbFn initU rng fuel s0 A k L E hloop] at h
    have hAE := hloopgen num_nodes A k L E hloop
    have h2 := Option.some.inj h
    injection h2 with hA hrest
    injection hrest with hL hrest2
    injection hrest2 with hE2 hact
    subst hA; subst hL; subst hE2
    exact ⟨hAE.2, hAE.1⟩

/-- Witness for C6: the concrete 100-iteration run on the one-move game
gives a root with exactly 100 visits and children totalling at most 100. -/
theorem think_root_visits_witness :
    ((∀ st : Bool, (oneMoveBoard.legal_actions st).Nodup) ∧
     oneMoveBoard.is_ended false = false) ∧
    ((getN wOut.1 0).visits = num_nodes ∧ num_nodes = 100 ∧
     rootChildSum wOut.1 ≤ num_nodes) :=
  ⟨⟨by decide, by decide⟩,
   think_root_visits oneMoveBoard ucbQ0 (-999999 : ℚ) (fun _ => 0) 1 false
     (by decide) (by decide) wOut.1 wOut.2.2.1 wOut.2.2.2
     (get_best_action wOut.1 0)
     (think_some oneMoveBoard ucbQ0 (-999999 : ℚ) (fun _ => 0) 1 false
       wOut.1 wOut.2.1 wOut.2.2.1 wOut.2.2.2 (by decide))⟩

/-- Witness for C7: in the concrete run every logged ucb read is of two
positive visit counts. -/
theorem think_ucb_reads_positive_witness :
    (∀ st : Bool, (oneMoveBoard.legal_actions st).Nodup) ∧
    (∀ cv pv, (cv, pv) ∈ wOut.2.2.1 → 0 < cv ∧ 0 < pv) :=
  ⟨by decide,
   think_ucb_reads_positive oneMoveBoard ucbQ0 (-999999 : ℚ) (fun _ => 0) 1 false
     (by decide) wOut.1 wOut.2.2.1 wOut.2.2.2 (get_best_action wOut.1 0)
     (think_some oneMoveBoard ucbQ0 (-999999 : ℚ) (fun _ => 0) 1 false
       wOut.1 wOut.2.1 wOut.2.2.1 wOut.2.2.2 (by decide))⟩

/-- Witness for C10 on the one-move game. -/
theorem think_zero_visit_unreachable_witness :
    (∀ st : Bool, (oneMoveBoard.legal_actions st).Nodup) ∧
    ((∀ (m : ℕ) (Am : List NodeData) (km : ℕ) (Lm : List (ℕ × ℕ)) (Em : Bool),
      thinkLoop oneMoveBoard ucbQ0 (-999999 : ℚ)
        (oneMoveBoard.current_player false) false (fun _ => 0) 1 m
        [rootNode oneMoveBoard false] 0 [] false = some (Am, km, Lm, Em) →
      childVisitsPos Am ∧ Em = false) ∧
     (∀ (arenaF : List NodeData) (logF : List (ℕ × ℕ)) (eF : Bool)
      (act : Option Action),
      think oneMoveBoard ucbQ0 (-999999 : ℚ) (fun _ => 0) 1 false =
        some (arenaF, logF, eF, act) →
      eF = false ∧ childVisitsPos arenaF)) :=
  ⟨by decide,
   think_zero_visit_unreachable oneMoveBoard ucbQ0 (-999999 : ℚ) (fun _ => 0) 1
     false (by decide)⟩

end Mcts
